import Mathlib

/-!
Shallow embedding of the `omni_map` crate (src/lib.rs and src/alloc.rs):
an insertion-ordered map backed by a dense entry vector and an
open-addressed, linearly probed index with tombstones.

Modelling conventions:
* `BufferPointer<Entry<K,V>>` (count `ecap`, initialized prefix) is a
  `List (Entry K V)` plus the `ecap : Nat` field; `BufferPointer<Slot>`
  always has `len = count` after `memset_default`, so it is a `List Slot`
  whose length is the capacity.
* `usize` arithmetic is `Nat`; the `checked_add`/`checked_next_power_of_two`
  saturation points are unreachable for any allocatable capacity and are not
  modelled.
* The `f64` load-factor comparison `(len + deleted) / cap > 0.75` is modelled
  exactly as `3 * cap < 4 * (len + deleted)`, and
  `(cap / 0.75).ceil() as usize` as `(4 * cap + 2) / 3`; these agree with the
  floating-point computation for every capacity below 2^50.
* `DefaultHasher` is modelled as an arbitrary deterministic function
  `hf : K → Nat`; key hashes are captured at insertion in the entry, exactly
  as in the source.
* Debug assertions whose failure is reachable from the public API are
  modelled with `Option` (`reserve`); panicking branches that are unreachable
  for well-formed maps keep the pre-state as a (proved unreachable) totality
  artifact, each marked in a comment.
-/

namespace OmniMapModel

set_option linter.unusedVariables false
set_option linter.unusedSectionVars false
set_option linter.unreachableTactic false
set_option linter.unusedTactic false

/-- Slot of the open-addressed index (lib.rs `enum Slot`). -/
inductive Slot where
  | empty
  | deleted
  | occupied (ordinal : Nat)
deriving DecidableEq, Repr

/-- `impl Default for Slot` returns `Slot::Empty`. -/
instance : Inhabited Slot := ⟨Slot.empty⟩

/-- An entry of the dense vector (lib.rs `struct Entry`): the hash is captured
at insertion time and never recomputed. -/
structure Entry (K V : Type) where
  key : K
  value : V
  hash : Nat
deriving DecidableEq, Repr

/-- State of `OmniMap` (lib.rs `struct OmniMap`): dense entries (initialized
prefix of the entries buffer), the entries buffer count `ecap`, the index
buffer, and the tombstone counter `deleted`. -/
structure OMap (K V : Type) where
  entries : List (Entry K V)
  ecap : Nat
  index : List Slot
  deleted : Nat
deriving DecidableEq, Repr

variable {K V : Type} [DecidableEq K]

/-- `OmniMap::capacity` returns `self.index.count()`. -/
def capacity (m : OMap K V) : Nat := m.index.length

/-- `OmniMap::len` returns the number of initialized entries. -/
def size (m : OMap K V) : Nat := m.entries.length

/-- `OmniMap::new`: zero capacity, no allocation. -/
def emptyMap (K V : Type) : OMap K V := ⟨[], 0, [], 0⟩

/-- `OmniMap::with_capacity(c)`: entries buffer of count `c`, index filled
with `Empty` slots. -/
def withCapacity (K V : Type) (c : Nat) : OMap K V :=
  ⟨[], c, List.replicate c Slot.empty, 0⟩

/-- The probe loop of `OmniMap::find_slot` (lib.rs 310-340): linear probing
from `slot_index`, stepping `(slot_index + 1) % capacity`, for at most
`capacity` steps (modelled by the fuel argument). `Empty` terminates with no
match, `Occupied` terminates when the keys are equal, `Deleted` is skipped.
The source reads `entries.load(i)` without a bounds check (UB when
`i ≥ len`, unreachable for well-formed maps); the model probes on for an
out-of-range ordinal. -/
def findSlotGo (index : List Slot) (entries : List (Entry K V)) (key : K)
    (cap : Nat) : Nat → Nat → Nat × Option Nat
  | slotIdx, 0 => (slotIdx, none)
  | slotIdx, fuel + 1 =>
    match index.getD slotIdx Slot.empty with
    | Slot.empty => (slotIdx, none)
    | Slot.occupied i =>
      match entries[i]? with
      | some e =>
        if e.key = key then (slotIdx, some i)
        else findSlotGo index entries key cap ((slotIdx + 1) % cap) fuel
      | none => findSlotGo index entries key cap ((slotIdx + 1) % cap) fuel
    | Slot.deleted => findSlotGo index entries key cap ((slotIdx + 1) % cap) fuel

/-- `OmniMap::find_slot` (lib.rs 310-340). -/
def findSlot (m : OMap K V) (hash : Nat) (key : K) : Nat × Option Nat :=
  findSlotGo m.index m.entries key (capacity m) (hash % capacity m) (capacity m)

/-- The probe loop of `OmniMap::build_index` (lib.rs 206-230): advance
linearly until the first `Empty` slot. The source loop is unbounded and
panics on a `Deleted` slot; neither case is reachable (`build_index` only
runs on a freshly reset index), and the model returns `none` after `fuel`
steps, skipping `Deleted` like `Occupied`. -/
def probeEmpty (index : List Slot) (cap : Nat) : Nat → Nat → Option Nat
  | _, 0 => none
  | slotIdx, fuel + 1 =>
    match index.getD slotIdx Slot.empty with
    | Slot.empty => some slotIdx
    | _ => probeEmpty index cap ((slotIdx + 1) % cap) fuel

/-- The entry loop of `OmniMap::build_index`: for each entry in order, place
`Occupied(ordinal)` in the first empty slot probed from `hash % capacity`.
The `none` fallback is the unreachable-case totality artifact. -/
def buildIndexGo (cap : Nat) : List (Entry K V) → Nat → List Slot → List Slot
  | [], _, idx => idx
  | e :: es, i, idx =>
    match probeEmpty idx cap (e.hash % cap) cap with
    | some s => buildIndexGo cap es (i + 1) (idx.set s (Slot.occupied i))
    | none => buildIndexGo cap es (i + 1) idx

/-- `OmniMap::build_index` (lib.rs 206-230). -/
def buildIndex (m : OMap K V) : OMap K V :=
  { m with index := buildIndexGo (capacity m) m.entries 0 m.index }

/-- `OmniMap::reset_index` (lib.rs 197-202): fresh all-`Empty` index of the
given capacity, `deleted` reset to 0. -/
def resetIndex (m : OMap K V) (cap : Nat) : OMap K V :=
  { m with index := List.replicate cap Slot.empty, deleted := 0 }

/-- `OmniMap::reallocate_reindex` (lib.rs 258-265): reallocate the entries
buffer (contents preserved), reset the index, rebuild it. -/
def reallocateReindex (m : OMap K V) (newCap : Nat) : OMap K V :=
  buildIndex (resetIndex { m with ecap := newCap } newCap)

/-- Rust `usize::next_power_of_two`: the smallest power of two that is
greater than or equal to the argument (1 for 0 and 1). -/
def log2Go : Nat → Nat → Nat
  | 0, _ => 0
  | fuel + 1, n => if 2 ≤ n then log2Go fuel (n / 2) + 1 else 0

def nextPowTwo (n : Nat) : Nat :=
  if n ≤ 1 then 1 else 2 ^ (log2Go (n - 1) (n - 1) + 1)

/-- `OmniMap::maybe_grow` (lib.rs 281-299): when the load
`(len + deleted) / cap` exceeds `0.75`, grow to
`next_power_of_two(ceil(cap / 0.75))` and reindex. -/
def maybeGrow (m : OMap K V) : OMap K V :=
  if 3 * capacity m < 4 * (size m + m.deleted) then
    reallocateReindex m (nextPowTwo ((4 * capacity m + 2) / 3))
  else m

/-- `OmniMap::ensure_capacity` (lib.rs 382-395): allocate capacity 1 for a
zero-capacity map (index filled with `Empty`), otherwise `maybe_grow`. -/
def ensureCapacity (m : OMap K V) : OMap K V :=
  if capacity m = 0 then { m with index := [Slot.empty], ecap := 1 }
  else maybeGrow m

/-- `OmniMap::insert` (lib.rs 434-475): ensure capacity, hash the key, probe.
On a key match, swap the value in place and return the old one; otherwise
write `Occupied(len)` into the terminating slot and append the entry.
The inner `none` branch is the totality artifact for the out-of-bounds
`entries.load` (unreachable: `find_slot` only matches loaded entries). -/
def insert (hf : K → Nat) (m : OMap K V) (key : K) (value : V) :
    OMap K V × Option V :=
  let m := ensureCapacity m
  let hash := hf key
  match findSlot m hash key with
  | (_, some entryIndex) =>
    match m.entries[entryIndex]? with
    | some e =>
      ({ m with entries := m.entries.set entryIndex { e with value := value } },
        some e.value)
    | none => (m, none)
  | (slotIndex, none) =>
    ({ m with
        index := m.index.set slotIndex (Slot.occupied m.entries.length),
        entries := m.entries ++ [⟨key, value, hash⟩] },
      none)

/-- `OmniMap::get` (lib.rs 509-525): empty map short-circuits, otherwise
probe and read the entry value. -/
def get (hf : K → Nat) (m : OMap K V) (key : K) : Option V :=
  if m.entries.length = 0 then none
  else
    match findSlot m (hf key) key with
    | (_, some i) => (m.entries[i]?).map (·.value)
    | (_, none) => none

/-- Slot-wise effect of `OmniMap::decrement_index`: `if *index > after`,
decrement the occupied ordinal. -/
def decSlot (after : Nat) (s : Slot) : Slot :=
  match s with
  | Slot.occupied i => if after < i then Slot.occupied (i - 1) else s
  | _ => s

/-- `OmniMap::decrement_index` (lib.rs 232-241): decrement every
`Occupied(j)` with `j > after` by one. -/
def decrementIndex (index : List Slot) (after : Nat) : List Slot :=
  index.map (decSlot after)

/-- `OmniMap::remove` (lib.rs 699-733): on a key match, mark the slot
`Deleted`; remove the entry (`take_last` when it is the last one, otherwise
`decrement_index` then `take_shift_left`); bump `deleted`. -/
def remove (hf : K → Nat) (m : OMap K V) (key : K) : OMap K V × Option V :=
  if m.entries.length = 0 then (m, none)
  else
    match findSlot m (hf key) key with
    | (slotIndex, some entryIndex) =>
      let removed := (m.entries[entryIndex]?).map (·.value)
      let idx1 := m.index.set slotIndex Slot.deleted
      if entryIndex = m.entries.length - 1 then
        ({ m with
            entries := m.entries.dropLast
            index := idx1
            deleted := m.deleted + 1 }, removed)
      else
        ({ m with
            entries := m.entries.eraseIdx entryIndex
            index := decrementIndex idx1 entryIndex
            deleted := m.deleted + 1 }, removed)
    | (_, none) => (m, none)

/-- `OmniMap::pop` (lib.rs 821-850): remove the last entry and mark its slot
`Deleted`. The final fallback models the source `unreachable!` panic
(no slot found for an existing entry), impossible for well-formed maps. -/
def pop (m : OMap K V) : OMap K V × Option (K × V) :=
  if m.entries.length = 0 then (m, none)
  else
    match m.entries.getLast? with
    | some e =>
      match findSlot m e.hash e.key with
      | (slot, some _) =>
        ({ m with
            entries := m.entries.dropLast
            index := m.index.set slot Slot.deleted
            deleted := m.deleted + 1 }, some (e.key, e.value))
      | (_, none) => (m, none)
    | none => (m, none)

/-- `OmniMap::pop_front` (lib.rs 762-792): remove the first entry
(`take_first` shifts the rest left), mark its slot `Deleted`, then decrement
every `Occupied(j)` with `j > 0`. The final fallback models the source
`unreachable!` panic, impossible for well-formed maps. -/
def popFront (m : OMap K V) : OMap K V × Option (K × V) :=
  if m.entries.length = 0 then (m, none)
  else
    match m.entries.head? with
    | some e =>
      match findSlot m e.hash e.key with
      | (slot, some _) =>
        ({ m with
            entries := m.entries.tail
            index := decrementIndex (m.index.set slot Slot.deleted) 0
            deleted := m.deleted + 1 }, some (e.key, e.value))
      | (_, none) => (m, none)
    | none => (m, none)

/-- `OmniMap::first` (lib.rs 607-617). -/
def firstEntry (m : OMap K V) : Option (K × V) :=
  m.entries.head?.map fun e => (e.key, e.value)

/-- `OmniMap::last` (lib.rs 645-655). -/
def lastEntry (m : OMap K V) : Option (K × V) :=
  m.entries.getLast?.map fun e => (e.key, e.value)

/-- Positional access `Index<usize>` (lib.rs 1131-1134): panics when
`i ≥ len`, modelled as `none`. -/
def indexAt (m : OMap K V) (i : Nat) : Option V :=
  (m.entries[i]?).map (·.value)

/-- `OmniMap::clear` (lib.rs 963-977): early return when empty; otherwise
`drop_init` the entries (length becomes 0), `memset_default` the index and
reset `deleted`. Capacity fields untouched. -/
def clear (m : OMap K V) : OMap K V :=
  if m.entries.length = 0 then m
  else
    { m with
      entries := []
      index := List.replicate (capacity m) Slot.empty
      deleted := 0 }

/-- `OmniMap::reserve` (lib.rs 368-378): zero additional is a no-op, else
reallocate both buffers to `capacity + additional` and reindex.
`BufferPointer::reallocate` (alloc.rs 287-330) requires an allocated buffer:
on a capacity-0 map the entries pointer is null, the debug assertion
`Pointer must not be null.` fires, and release builds call
`realloc` on a null pointer (undefined behavior). That aborted execution is
modelled as `none`. -/
def reserve (m : OMap K V) (additional : Nat) : Option (OMap K V) :=
  if additional = 0 then some m
  else if m.ecap = 0 then none
  else some (reallocateReindex m (capacity m + additional))

/-- `OmniMap::shrink_to` (lib.rs 882-898): only acts when
`len ≤ n < capacity`; reallocates and reindexes when `len > 0`, and
deallocates both buffers (without dropping) when `len = 0` — whatever `n`
is. `deallocate_no_drop` (lib.rs 274-278) also resets `deleted`. -/
def shrinkTo (m : OMap K V) (n : Nat) : OMap K V :=
  if m.entries.length ≤ n ∧ n < capacity m then
    if 0 < m.entries.length then reallocateReindex m n
    else { m with ecap := 0, index := [], deleted := 0 }
  else m

/-- `OmniMap::shrink_to_fit` (lib.rs 926-939). -/
def shrinkToFit (m : OMap K V) : OMap K V :=
  if m.entries.length < capacity m then
    if 0 < m.entries.length then reallocateReindex m m.entries.length
    else { m with ecap := 0, index := [], deleted := 0 }
  else m

/-- `OmniMap::clone_compact` (lib.rs 1300-1310): clone the entries with
count = length (`BufferPointer::clone_in` with `compact = true`,
alloc.rs 951-986), allocate a fresh all-`Empty` index of that size, rebuild. -/
def cloneCompact (m : OMap K V) : OMap K V :=
  buildIndex
    { entries := m.entries, ecap := m.entries.length,
      index := List.replicate m.entries.length Slot.empty, deleted := 0 }

/-- `OmniMap::current_load` (lib.rs 1063-1069) in exact rational arithmetic:
0 when the capacity is 0 (the guard that prevents a zero divisor), otherwise
`(len + deleted) / capacity`. -/
def currentLoad (m : OMap K V) : ℚ :=
  if capacity m = 0 then 0
  else ((size m : ℚ) + (m.deleted : ℚ)) / (capacity m : ℚ)

/-- `BufferPointer::drop_init` (alloc.rs 658-669), with the count of elements
whose destructor runs made explicit. The source assigns `self.len = 0` first
and then calls `drop_in_place` on the slice
`from_raw_parts_mut(self.ptr, self.len)` built from the freshly zeroed
length, so the slice passed to `drop_in_place` is empty. Returns
(new length, number of elements dropped). -/
def dropInit (len : Nat) : Nat × Nat :=
  let newLen := 0
  (newLen, newLen)

/-- Key-value view of the map in entry order: what `iter()`
(lib.rs 994-996) yields. -/
def toPairs (m : OMap K V) : List (K × V) :=
  m.entries.map fun e => (e.key, e.value)

/-- First-match association lookup on the pair view. -/
def lookupA (l : List (K × V)) (k : K) : Option V :=
  (l.find? fun p => p.1 = k).map (·.2)

/-! ### Slot counting helpers -/

/-- Whether a slot is `Occupied`. -/
def isOcc : Slot → Bool
  | Slot.occupied _ => true
  | _ => false

/-- Whether a slot is not `Empty` (it blocks a probe's termination). -/
def nonEmptyB : Slot → Bool
  | Slot.empty => false
  | _ => true

/-- Ordinals of the occupied slots, in slot order. -/
def occList (l : List Slot) : List Nat :=
  l.filterMap fun s =>
    match s with
    | Slot.occupied i => some i
    | _ => none

theorem occList_length (l : List Slot) : (occList l).length = l.countP isOcc := by
  induction l with
  | nil => rfl
  | cons s t ih =>
    cases s <;> simp [occList, List.filterMap_cons, List.countP_cons, isOcc] at * <;>
      omega

theorem occList_count (l : List Slot) (i : Nat) :
    (occList l).count i = l.count (Slot.occupied i) := by
  induction l with
  | nil => rfl
  | cons s t ih =>
    simp only [occList] at ih ⊢
    cases s with
    | empty => simpa [List.filterMap_cons, List.count_cons] using ih
    | deleted => simpa [List.filterMap_cons, List.count_cons] using ih
    | occupied j =>
      simp only [List.filterMap_cons]
      rw [List.count_cons, List.count_cons, ih]
      by_cases h : j = i <;> simp [h]

theorem count_range_eq (n i : Nat) :
    (List.range n).count i = if i < n then 1 else 0 := by
  induction n with
  | zero => simp
  | succ n ih =>
    rw [List.range_succ, List.count_append, ih]
    have hsing : List.count i [n] = if n = i then 1 else 0 := by
      rw [show [n] = n :: ([] : List Nat) from rfl, List.count_cons]
      simp
    rw [hsing]
    split_ifs <;> omega

/-- If the occupied ordinals each occur exactly once and are exactly
`0, …, n-1`, there are `n` occupied slots. -/
theorem countP_isOcc_eq (l : List Slot) (n : Nat)
    (h : ∀ i, l.count (Slot.occupied i) = if i < n then 1 else 0) :
    l.countP isOcc = n := by
  have hperm : (occList l).Perm (List.range n) := by
    rw [List.perm_iff_count]
    intro i
    rw [occList_count, h i, count_range_eq]
  calc l.countP isOcc = (occList l).length := (occList_length l).symm
    _ = (List.range n).length := hperm.length_eq
    _ = n := List.length_range n

theorem countP_nonEmptyB (l : List Slot) :
    l.countP nonEmptyB = l.count Slot.deleted + l.countP isOcc := by
  induction l with
  | nil => rfl
  | cons s t ih =>
    cases s <;>
      simp [List.countP_cons, List.count_cons, nonEmptyB, isOcc, ih] <;> omega

theorem exists_empty_getD (l : List Slot) (h : l.countP nonEmptyB < l.length) :
    ∃ p < l.length, l.getD p Slot.empty = Slot.empty := by
  by_contra hno
  push_neg at hno
  have hall : ∀ s ∈ l, nonEmptyB s = true := by
    intro s hs
    rcases List.mem_iff_getElem.mp hs with ⟨p, hp, rfl⟩
    have hD : l.getD p Slot.empty = l[p] := by
      rw [List.getD_eq_getElem?_getD, List.getElem?_eq_getElem hp]
      rfl
    have := hno p hp
    rw [hD] at this
    cases hh : l[p] <;> simp [nonEmptyB] at this ⊢
    exact this hh
  exact absurd (List.countP_eq_length.mpr hall) (by omega)

/-! ### Modular-position helpers for the probe sequence -/

theorem probe_shift (start j cap : Nat) :
    ((start + 1) % cap + j) % cap = (start + (j + 1)) % cap := by
  rw [Nat.mod_add_mod]
  ring_nf

theorem probe_pos_inj {cap j k : Nat} (start : Nat) (hj : j < cap) (hk : k < cap)
    (h : (start + j) % cap = (start + k) % cap) : j = k := by
  have hmod : j % cap = k % cap := Nat.ModEq.add_left_cancel' start h
  rwa [Nat.mod_eq_of_lt hj, Nat.mod_eq_of_lt hk] at hmod

theorem exists_probe_offset {cap start p : Nat} (hstart : start < cap)
    (hp : p < cap) : ∃ j < cap, (start + j) % cap = p := by
  have hcap : 0 < cap := by omega
  refine ⟨(cap + p - start) % cap, Nat.mod_lt _ hcap, ?_⟩
  rw [Nat.add_mod_mod]
  have h2 : start + (cap + p - start) = p + cap := by omega
  rw [h2, Nat.add_mod_right, Nat.mod_eq_of_lt hp]

/-! ### List.set / getD helpers -/

theorem set_getD_self {l : List Slot} {p : Nat} (hp : p < l.length) (b : Slot) :
    (l.set p b).getD p Slot.empty = b := by
  rw [List.getD_eq_getElem?_getD, List.getElem?_set_self hp]
  rfl

theorem set_getD_ne {l : List Slot} {p q : Nat} (h : p ≠ q) (b : Slot) :
    (l.set p b).getD q Slot.empty = l.getD q Slot.empty := by
  rw [List.getD_eq_getElem?_getD, List.getElem?_set_ne h, ← List.getD_eq_getElem?_getD]

theorem count_set_eq (l : List Slot) (p : Nat) (b : Slot) (a : Slot) (hp : p < l.length) :
    (l.set p b).count a + (if l.getD p Slot.empty = a then 1 else 0)
      = l.count a + (if b = a then 1 else 0) := by
  induction l generalizing p with
  | nil => simp at hp
  | cons x t ih =>
    cases p with
    | zero =>
      rw [List.set_cons_zero, List.getD_cons_zero, List.count_cons, List.count_cons]
      simp only [beq_iff_eq]
      split_ifs <;> omega
    | succ q =>
      have hq : q < t.length := by simpa using hp
      have hrec := ih q hq
      rw [List.set_cons_succ, List.getD_cons_succ, List.count_cons, List.count_cons]
      simp only [beq_iff_eq]
      split_ifs at hrec ⊢ <;> omega

/-! ### Probe-loop lemmas for `find_slot` and `build_index` -/

/-- When no loaded entry carries the searched key, the probe loop never
reports a match. -/
theorem findSlotGo_snd_none (idx : List Slot) (es : List (Entry K V)) (key : K)
    (cap : Nat) (hno : ∀ (i : Nat) (e : Entry K V), es[i]? = some e → ¬ e.key = key) :
    ∀ fuel slotIdx, (findSlotGo idx es key cap slotIdx fuel).2 = none := by
  intro fuel
  induction fuel with
  | zero => intro s; rfl
  | succ n ih =>
    intro s
    unfold findSlotGo
    split
    · rfl
    · next i heq =>
      split
      · next e he => rw [if_neg (hno i e he)]; exact ih _
      · exact ih _
    · exact ih _

/-- Inversion of a probe match: the reported slot is occupied by the
reported ordinal, and that ordinal loads an entry with the searched key. -/
theorem findSlotGo_some_inv (idx : List Slot) (es : List (Entry K V)) (key : K)
    (cap : Nat) : ∀ fuel slotIdx s i,
    findSlotGo idx es key cap slotIdx fuel = (s, some i) →
    idx.getD s Slot.empty = Slot.occupied i ∧
      ∃ e, es[i]? = some e ∧ e.key = key := by
  intro fuel
  induction fuel with
  | zero =>
    intro s0 s i h
    exact absurd (congrArg Prod.snd h) (by simp [findSlotGo])
  | succ n ih =>
    intro s0 s i h
    unfold findSlotGo at h
    split at h
    · cases h
    · next t heq =>
      split at h
      · next e he =>
        split at h
        · next hk =>
          obtain ⟨rfl, ht⟩ := Prod.mk.injEq .. ▸ h
          cases ht
          exact ⟨heq, e, he, hk⟩
        · exact ih _ _ _ h
      · exact ih _ _ _ h
    · exact ih _ _ _ h

/-- If ordinal `i` sits `k` steps down the probe path, every earlier slot on
the path is non-empty, and no earlier slot matches the key, the probe stops
exactly there with a match. -/
theorem findSlotGo_find (idx : List Slot) (es : List (Entry K V)) (key : K)
    (cap : Nat) : ∀ k fuel start, start < cap → k < fuel →
    (∀ j < k, idx.getD ((start + j) % cap) Slot.empty ≠ Slot.empty) →
    (∀ j < k, ∀ (t : Nat) (e : Entry K V),
        idx.getD ((start + j) % cap) Slot.empty = Slot.occupied t →
        es[t]? = some e → ¬ e.key = key) →
    ∀ (i : Nat) (e : Entry K V),
    idx.getD ((start + k) % cap) Slot.empty = Slot.occupied i →
    es[i]? = some e → e.key = key →
    findSlotGo idx es key cap start fuel = ((start + k) % cap, some i) := by
  intro k
  induction k with
  | zero =>
    intro fuel start hstart hfuel _ _ i e hocc he hkey
    obtain ⟨n, rfl⟩ : ∃ n, fuel = n + 1 := ⟨fuel - 1, by omega⟩
    have hpos : (start + 0) % cap = start := by
      rw [Nat.add_zero, Nat.mod_eq_of_lt hstart]
    rw [hpos] at hocc ⊢
    unfold findSlotGo
    simp only [hocc, he, if_pos hkey]
  | succ k ihk =>
    intro fuel start hstart hfuel hne hnom i e hocc he hkey
    obtain ⟨n, rfl⟩ : ∃ n, fuel = n + 1 := ⟨fuel - 1, by omega⟩
    have hcap : 0 < cap := by omega
    have hpos : (start + 0) % cap = start := by
      rw [Nat.add_zero, Nat.mod_eq_of_lt hstart]
    have hshift : ∀ j, ((start + 1) % cap + j) % cap = (start + (j + 1)) % cap :=
      fun j => probe_shift start j cap
    have hrec : findSlotGo idx es key cap ((start + 1) % cap) n
        = ((start + (k + 1)) % cap, some i) := by
      rw [← hshift k]
      refine ihk n ((start + 1) % cap) (Nat.mod_lt _ hcap) (by omega) ?_ ?_ i e ?_ he hkey
      · intro j hj
        rw [hshift j]
        exact hne (j + 1) (by omega)
      · intro j hj
        rw [hshift j]
        exact hnom (j + 1) (by omega)
      · rw [hshift k]
        exact hocc
    have hne0 := hne 0 (by omega)
    rw [hpos] at hne0
    unfold findSlotGo
    split
    · next heq => exact absurd heq hne0
    · next t heq =>
      split
      · next e2 he2 =>
        have hnm := hnom 0 (by omega) t e2 (by rw [hpos]; exact heq) he2
        rw [if_neg hnm]
        exact hrec
      · exact hrec
    · exact hrec

/-- Inversion of a no-match probe: provided an empty slot is within `fuel`
steps of the start, the result slot is the first empty slot on the path and
nothing before it was empty or matched the key. -/
theorem findSlotGo_none_inv (idx : List Slot) (es : List (Entry K V)) (key : K)
    (cap : Nat) : ∀ fuel start, start < cap →
    (∃ j < fuel, idx.getD ((start + j) % cap) Slot.empty = Slot.empty) →
    ∀ s, findSlotGo idx es key cap start fuel = (s, none) →
    ∃ k < fuel, s = (start + k) % cap ∧ idx.getD s Slot.empty = Slot.empty ∧
      (∀ j < k, idx.getD ((start + j) % cap) Slot.empty ≠ Slot.empty) ∧
      (∀ j < k, ∀ (t : Nat) (e : Entry K V),
          idx.getD ((start + j) % cap) Slot.empty = Slot.occupied t →
          es[t]? = some e → ¬ e.key = key) := by
  intro fuel
  induction fuel with
  | zero => intro start _ h; omega
  | succ n ih =>
    intro start hstart hex s hres
    have hcap : 0 < cap := by omega
    have hpos : (start + 0) % cap = start := by
      rw [Nat.add_zero, Nat.mod_eq_of_lt hstart]
    have hshift : ∀ j, ((start + 1) % cap + j) % cap = (start + (j + 1)) % cap :=
      fun j => probe_shift start j cap
    have hstep : ∀ (heq : idx.getD start Slot.empty ≠ Slot.empty)
        (hres2 : findSlotGo idx es key cap ((start + 1) % cap) n = (s, none))
        (hnom0 : ∀ (t : Nat) (e : Entry K V),
          idx.getD start Slot.empty = Slot.occupied t → es[t]? = some e →
          ¬ e.key = key),
        ∃ k < n + 1, s = (start + k) % cap ∧
          idx.getD s Slot.empty = Slot.empty ∧
          (∀ j < k, idx.getD ((start + j) % cap) Slot.empty ≠ Slot.empty) ∧
          (∀ j < k, ∀ (t : Nat) (e : Entry K V),
              idx.getD ((start + j) % cap) Slot.empty = Slot.occupied t →
              es[t]? = some e → ¬ e.key = key) := by
      intro heq hres2 hnom0
      have hex2 : ∃ j < n, idx.getD (((start + 1) % cap + j) % cap) Slot.empty
          = Slot.empty := by
        obtain ⟨j, hj, hemp⟩ := hex
        cases j with
        | zero => rw [hpos] at hemp; exact absurd hemp heq
        | succ j2 => exact ⟨j2, by omega, by rw [hshift j2]; exact hemp⟩
      obtain ⟨k, hk, hks, hkemp, hkne, hknom⟩ :=
        ih ((start + 1) % cap) (Nat.mod_lt _ hcap) hex2 s hres2
      rw [hshift k] at hks
      refine ⟨k + 1, by omega, hks, hkemp, ?_, ?_⟩
      · intro j hj
        cases j with
        | zero => rw [hpos]; exact heq
        | succ j2 => rw [← hshift j2]; exact hkne j2 (by omega)
      · intro j hj t e hocc het
        cases j with
        | zero =>
          rw [hpos] at hocc
          exact hnom0 t e hocc het
        | succ j2 =>
          rw [← hshift j2] at hocc
          exact hknom j2 (by omega) t e hocc het
    unfold findSlotGo at hres
    split at hres
    · next heq =>
      obtain ⟨rfl, _⟩ := Prod.mk.injEq .. ▸ hres
      refine ⟨0, by omega, hpos.symm, heq, ?_, ?_⟩
      · intro j hj; omega
      · intro j hj; omega
    · next t heq =>
      split at hres
      · next e he =>
        split at hres
        · cases hres
        · next hk =>
          refine hstep (by rw [heq]; simp) hres ?_
          intro t2 e2 hocc het2
          rw [heq] at hocc
          cases hocc
          rw [he] at het2
          cases het2
          exact hk
      · next he =>
        refine hstep (by rw [heq]; simp) hres ?_
        intro t2 e2 hocc het2
        rw [heq] at hocc
        cases hocc
        rw [he] at het2
        cases het2
    · next heq =>
      refine hstep (by rw [heq]; simp) hres ?_
      intro t2 e2 hocc het2
      rw [heq] at hocc
      cases hocc

/-- The `build_index` probe stops at the first empty slot on the path when
one is within `fuel` steps. -/
theorem probeEmpty_found (idx : List Slot) (cap : Nat) :
    ∀ fuel start, start < cap →
    (∃ j < fuel, idx.getD ((start + j) % cap) Slot.empty = Slot.empty) →
    ∃ k < fuel, probeEmpty idx cap start fuel = some ((start + k) % cap) ∧
      idx.getD ((start + k) % cap) Slot.empty = Slot.empty ∧
      ∀ j < k, idx.getD ((start + j) % cap) Slot.empty ≠ Slot.empty := by
  intro fuel
  induction fuel with
  | zero => intro start _ h; omega
  | succ n ih =>
    intro start hstart hex
    have hcap : 0 < cap := by omega
    have hpos : (start + 0) % cap = start := by
      rw [Nat.add_zero, Nat.mod_eq_of_lt hstart]
    have hshift : ∀ j, ((start + 1) % cap + j) % cap = (start + (j + 1)) % cap :=
      fun j => probe_shift start j cap
    cases hs : idx.getD start Slot.empty with
    | empty =>
      refine ⟨0, by omega, ?_, by rw [hpos]; exact hs, fun j hj => by omega⟩
      unfold probeEmpty
      rw [hs, hpos]
    | deleted =>
      have hex2 : ∃ j < n, idx.getD (((start + 1) % cap + j) % cap) Slot.empty
          = Slot.empty := by
        obtain ⟨j, hj, hemp⟩ := hex
        cases j with
        | zero => rw [hpos] at hemp; exact absurd hemp (by rw [hs]; simp)
        | succ j2 => exact ⟨j2, by omega, by rw [hshift j2]; exact hemp⟩
      obtain ⟨k, hk, hkeq, hkemp, hkne⟩ := ih ((start + 1) % cap) (Nat.mod_lt _ hcap) hex2
      refine ⟨k + 1, by omega, ?_, by rw [← hshift k]; exact hkemp, ?_⟩
      · unfold probeEmpty
        rw [hs, hkeq, hshift k]
      · intro j hj
        cases j with
        | zero => rw [hpos, hs]; simp
        | succ j2 => rw [← hshift j2]; exact hkne j2 (by omega)
    | occupied t =>
      have hex2 : ∃ j < n, idx.getD (((start + 1) % cap + j) % cap) Slot.empty
          = Slot.empty := by
        obtain ⟨j, hj, hemp⟩ := hex
        cases j with
        | zero => rw [hpos] at hemp; exact absurd hemp (by rw [hs]; simp)
        | succ j2 => exact ⟨j2, by omega, by rw [hshift j2]; exact hemp⟩
      obtain ⟨k, hk, hkeq, hkemp, hkne⟩ := ih ((start + 1) % cap) (Nat.mod_lt _ hcap) hex2
      refine ⟨k + 1, by omega, ?_, by rw [← hshift k]; exact hkemp, ?_⟩
      · unfold probeEmpty
        rw [hs, hkeq, hshift k]
      · intro j hj
        cases j with
        | zero => rw [hpos, hs]; simp
        | succ j2 => rw [← hshift j2]; exact hkne j2 (by omega)

/-! ### The well-formedness invariant -/

/-- An occupied slot refers to an ordinal below `n`. -/
def SlotOrdLt (n : Nat) : Slot → Prop
  | Slot.occupied i => i < n
  | _ => True

instance (n : Nat) : (s : Slot) → Decidable (SlotOrdLt n s)
  | Slot.empty => isTrue trivial
  | Slot.deleted => isTrue trivial
  | Slot.occupied i => inferInstanceAs (Decidable (i < n))

/-- Hash stored at ordinal `i` of the entry vector (0 out of bounds). -/
def entryHash (es : List (Entry K V)) (i : Nat) : Nat :=
  match es[i]? with
  | some e => e.hash
  | none => 0

/-- Ordinal `i` is reachable by linear probing from `h mod capacity`: its
slot sits `k` steps down the path and every earlier slot is non-empty
(spec invariant 2). -/
def Reach (idx : List Slot) (h i : Nat) : Prop :=
  ∃ k < idx.length,
    idx.getD ((h % idx.length + k) % idx.length) Slot.empty = Slot.occupied i ∧
    ∀ j < k, idx.getD ((h % idx.length + j) % idx.length) Slot.empty ≠ Slot.empty

instance (idx : List Slot) (h i : Nat) : Decidable (Reach idx h i) :=
  inferInstanceAs (Decidable (∃ k < idx.length,
    idx.getD ((h % idx.length + k) % idx.length) Slot.empty = Slot.occupied i ∧
    ∀ j < k, idx.getD ((h % idx.length + j) % idx.length) Slot.empty ≠ Slot.empty))

/-- The invariants of a resting `OmniMap` (spec section 3): buffers allocated
in lockstep, load below capacity, stored hashes match the hasher, keys
unique, `deleted` counts the tombstones, every occupied slot names a live
ordinal, every live ordinal is indexed by exactly one slot and is reachable
by probing from its stored hash. -/
def WF (hf : K → Nat) (m : OMap K V) : Prop :=
  m.ecap = m.index.length ∧
  m.entries.length + m.deleted ≤ m.index.length ∧
  (∀ e ∈ m.entries, e.hash = hf e.key) ∧
  (m.entries.map (·.key)).Nodup ∧
  m.index.count Slot.deleted = m.deleted ∧
  (∀ s ∈ m.index, SlotOrdLt m.entries.length s) ∧
  (∀ i < m.entries.length, m.index.count (Slot.occupied i) = 1 ∧
    Reach m.index (entryHash m.entries i) i)

instance (hf : K → Nat) (m : OMap K V) : Decidable (WF hf m) := by
  unfold WF
  infer_instance

theorem WF.ecap_eq {hf : K → Nat} {m : OMap K V} (h : WF hf m) :
    m.ecap = m.index.length := h.1

theorem WF.load_le {hf : K → Nat} {m : OMap K V} (h : WF hf m) :
    m.entries.length + m.deleted ≤ m.index.length := h.2.1

theorem WF.hash_eq {hf : K → Nat} {m : OMap K V} (h : WF hf m) :
    ∀ e ∈ m.entries, e.hash = hf e.key := h.2.2.1

theorem WF.keys_nodup {hf : K → Nat} {m : OMap K V} (h : WF hf m) :
    (m.entries.map (·.key)).Nodup := h.2.2.2.1

theorem WF.del_count {hf : K → Nat} {m : OMap K V} (h : WF hf m) :
    m.index.count Slot.deleted = m.deleted := h.2.2.2.2.1

theorem WF.ord_lt {hf : K → Nat} {m : OMap K V} (h : WF hf m) :
    ∀ s ∈ m.index, SlotOrdLt m.entries.length s := h.2.2.2.2.2.1

theorem WF.occ_one {hf : K → Nat} {m : OMap K V} (h : WF hf m) :
    ∀ i < m.entries.length, m.index.count (Slot.occupied i) = 1 := by
  intro i hi
  exact (h.2.2.2.2.2.2 i hi).1

theorem WF.reach {hf : K → Nat} {m : OMap K V} (h : WF hf m) :
    ∀ i < m.entries.length, Reach m.index (entryHash m.entries i) i := by
  intro i hi
  exact (h.2.2.2.2.2.2 i hi).2

/-! ### Derived counting facts -/

theorem mem_of_get? {l : List α} {i : Nat} {a : α} (h : l[i]? = some a) : a ∈ l := by
  obtain ⟨hi, heq⟩ := List.getElem?_eq_some.mp h
  exact heq ▸ List.getElem_mem hi

theorem getD_mem {l : List Slot} {p : Nat} (hp : p < l.length) :
    l.getD p Slot.empty ∈ l := by
  rw [List.getD_eq_getElem?_getD, List.getElem?_eq_getElem hp]
  exact List.getElem_mem hp

theorem lt_of_get?_eq_some {l : List α} {i : Nat} {a : α} (h : l[i]? = some a) :
    i < l.length := by
  by_contra hc
  rw [List.getElem?_eq_none (by omega)] at h
  cases h

theorem WF.occ_count {hf : K → Nat} {m : OMap K V} (hm : WF hf m) (i : Nat) :
    m.index.count (Slot.occupied i) = if i < m.entries.length then 1 else 0 := by
  by_cases h : i < m.entries.length
  · rw [if_pos h]
    exact hm.occ_one i h
  · rw [if_neg h]
    rw [List.count_eq_zero]
    intro hmem
    exact h (hm.ord_lt _ hmem)

theorem WF.count_nonEmpty {hf : K → Nat} {m : OMap K V} (hm : WF hf m) :
    m.index.countP nonEmptyB = m.entries.length + m.deleted := by
  rw [countP_nonEmptyB, hm.del_count,
    countP_isOcc_eq m.index m.entries.length (fun i => hm.occ_count i)]
  omega

/-- Two distinct positions holding the same slot value force a count of at
least two. -/
theorem two_le_count_of_ne_pos {l : List Slot} {p q : Nat} {a : Slot}
    (hpq : p ≠ q) (hp : p < l.length) (hq : q < l.length)
    (ha : l.getD p Slot.empty = a) (hb : l.getD q Slot.empty = a) :
    2 ≤ l.count a := by
  induction l generalizing p q with
  | nil => simp at hp
  | cons x t ih =>
    have hmemcount : ∀ (r : Nat), r < t.length → t.getD r Slot.empty = a →
        1 ≤ t.count a := by
      intro r hr hra
      have : a ∈ t := hra ▸ getD_mem hr
      have := List.count_pos_iff.mpr this
      omega
    cases p with
    | zero =>
      cases q with
      | zero => exact absurd rfl hpq
      | succ q2 =>
        rw [List.getD_cons_zero] at ha
        rw [List.getD_cons_succ] at hb
        have hq2 : q2 < t.length := by simpa using hq
        have h1 := hmemcount q2 hq2 hb
        rw [List.count_cons, if_pos (by simp [ha])]
        omega
    | succ p2 =>
      cases q with
      | zero =>
        rw [List.getD_cons_zero] at hb
        rw [List.getD_cons_succ] at ha
        have hp2 : p2 < t.length := by simpa using hp
        have h1 := hmemcount p2 hp2 ha
        rw [List.count_cons, if_pos (by simp [hb])]
        omega
      | succ q2 =>
        have hp2 : p2 < t.length := by simpa using hp
        have hq2 : q2 < t.length := by simpa using hq
        rw [List.getD_cons_succ] at ha hb
        have := ih (by omega : p2 ≠ q2) hp2 hq2 ha hb
        rw [List.count_cons]
        split_ifs <;> omega

/-- With unique keys, two loaded entries with equal keys sit at the same
ordinal. -/
theorem ord_eq_of_key_eq {es : List (Entry K V)}
    (hnd : (es.map (·.key)).Nodup) {i j : Nat} {e1 e2 : Entry K V}
    (h1 : es[i]? = some e1) (h2 : es[j]? = some e2)
    (hk : e1.key = e2.key) : i = j := by
  have hi : i < es.length := lt_of_get?_eq_some h1
  have hj : j < es.length := lt_of_get?_eq_some h2
  have hmi : (es.map (·.key))[i]? = some e1.key := by
    rw [List.getElem?_map, h1]
    rfl
  have hmj : (es.map (·.key))[j]? = some e2.key := by
    rw [List.getElem?_map, h2]
    rfl
  refine List.getElem?_inj (by simpa using hi) hnd ?_
  rw [hmi, hmj, hk]

/-! ### `find_slot` correctness at map level -/

/-- A loaded entry is always found by probing from its stored hash. -/
theorem findSlot_some_of_mem (hf : K → Nat) {m : OMap K V} (hm : WF hf m)
    {i : Nat} {e : Entry K V} (he : m.entries[i]? = some e) :
    ∃ s, findSlot m e.hash e.key = (s, some i) ∧
      m.index.getD s Slot.empty = Slot.occupied i := by
  have hi : i < m.entries.length := lt_of_get?_eq_some he
  have hcap : 0 < m.index.length := by
    have := hm.load_le
    omega
  have hhash : entryHash m.entries i = e.hash := by
    unfold entryHash
    rw [he]
  obtain ⟨k, hk, htgt, hpre⟩ := hhash ▸ hm.reach i hi
  set cap := m.index.length with hcapdef
  set start := e.hash % cap with hstart
  have hstartlt : start < cap := Nat.mod_lt _ hcap
  have hnom : ∀ j < k, ∀ (t : Nat) (e2 : Entry K V),
      m.index.getD ((start + j) % cap) Slot.empty = Slot.occupied t →
      m.entries[t]? = some e2 → ¬ e2.key = e.key := by
    intro j hj t e2 hocc he2 hkey
    have hti : t = i := ord_eq_of_key_eq hm.keys_nodup he2 he hkey
    subst hti
    have hne : (start + j) % cap ≠ (start + k) % cap := by
      intro hcontra
      exact absurd (probe_pos_inj start (by omega) hk hcontra) (by omega)
    have h2 := two_le_count_of_ne_pos hne (Nat.mod_lt _ hcap) (Nat.mod_lt _ hcap)
      hocc htgt
    have h1 := hm.occ_one t hi
    omega
  refine ⟨(start + k) % cap, ?_, htgt⟩
  exact findSlotGo_find m.index m.entries e.key cap k cap start hstartlt hk hpre hnom
    i e htgt he rfl

/-- Probing for an absent key reports no match, whatever the hash. -/
theorem findSlot_none_of_absent {m : OMap K V} (k : K)
    (hk : ∀ e ∈ m.entries, ¬ e.key = k) (h : Nat) :
    (findSlot m h k).2 = none := by
  exact findSlotGo_snd_none m.index m.entries k (capacity m)
    (fun i e he => hk e (mem_of_get? he)) _ _

/-! ### `get` against the association-list view -/

/-- With unique keys, `find?` returns the entry loaded at any matching
ordinal. -/
theorem nodup_find?_eq {es : List (Entry K V)}
    (hnd : (es.map (·.key)).Nodup) {i : Nat} {e : Entry K V}
    (he : es[i]? = some e) :
    es.find? (fun x => decide (x.key = e.key)) = some e := by
  induction es generalizing i with
  | nil => cases he
  | cons x t ih =>
    have hnd2 : x.key ∉ t.map (·.key) ∧ (t.map (·.key)).Nodup := by
      rw [List.map_cons, List.nodup_cons] at hnd
      exact hnd
    obtain ⟨hx, hndt⟩ := hnd2
    cases i with
    | zero =>
      rw [List.getElem?_cons_zero] at he
      cases he
      rw [List.find?_cons]
      simp
    | succ j =>
      rw [List.getElem?_cons_succ] at he
      have hne : ¬ x.key = e.key := by
        intro hcontra
        exact hx (hcontra ▸ List.mem_map_of_mem (·.key) (mem_of_get? he))
      rw [List.find?_cons, decide_eq_false hne]
      exact ih hndt he

/-- `lookupA` over the pair view reduces to `find?` over the entries. -/
theorem lookupA_toPairs (m : OMap K V) (k : K) :
    lookupA (toPairs m) k
      = (m.entries.find? (fun e => decide (e.key = k))).map (·.value) := by
  unfold lookupA toPairs
  rw [List.find?_map]
  cases h : m.entries.find? (fun e => decide (e.key = k)) with
  | none =>
    have : m.entries.find?
        ((fun (p : K × V) => decide (p.1 = k)) ∘ fun e => (e.key, e.value)) = none := h
    rw [this]
    rfl
  | some e =>
    have : m.entries.find?
        ((fun (p : K × V) => decide (p.1 = k)) ∘ fun e => (e.key, e.value)) = some e := h
    rw [this]
    rfl

/-- `OmniMap::get` agrees with first-match association lookup on the entry
sequence: the central retrieval lemma. -/
theorem get_eq_lookupA (hf : K → Nat) {m : OMap K V} (hm : WF hf m) (k : K) :
    get hf m k = lookupA (toPairs m) k := by
  rw [lookupA_toPairs]
  by_cases hlen : m.entries.length = 0
  · rw [List.length_eq_zero.mp hlen]
    unfold get
    rw [if_pos (by rw [List.length_eq_zero.mp hlen]; rfl)]
    rfl
  · by_cases hex : ∃ e ∈ m.entries, e.key = k
    · obtain ⟨e, hemem, hkey⟩ := hex
      obtain ⟨i, hi, hie⟩ := List.mem_iff_getElem.mp hemem
      have he : m.entries[i]? = some e := by
        rw [List.getElem?_eq_getElem hi, hie]
      obtain ⟨s, hfs, _⟩ := findSlot_some_of_mem hf hm he
      have hhash : e.hash = hf k := by
        rw [hm.hash_eq e hemem, hkey]
      rw [hhash, hkey] at hfs
      unfold get
      rw [if_neg hlen]
      simp only [hfs, he, Option.map_some']
      rw [← hkey, nodup_find?_eq hm.keys_nodup he]
      rfl
    · push_neg at hex
      have hnone := findSlot_none_of_absent k (fun e he => hex e he) (hf k)
      unfold get
      rw [if_neg hlen]
      rcases hfs : findSlot m (hf k) k with ⟨s, oi⟩
      rw [hfs] at hnone
      cases oi with
      | none =>
        have hfind : m.entries.find? (fun e => decide (e.key = k)) = none := by
          rw [List.find?_eq_none]
          intro x hx
          simpa using hex x hx
        rw [hfind]
        rfl
      | some j => cases hnone

/-! ### `build_index` establishes the invariant -/

/-- Intermediate state of `build_index` after placing the first `t` entries
of `F`: no tombstones, ordinals `0, …, t-1` indexed exactly once, each
reachable from its stored hash. -/
def BuildInv (F : List (Entry K V)) (cap t : Nat) (idx : List Slot) : Prop :=
  idx.length = cap ∧
  idx.count Slot.deleted = 0 ∧
  (∀ i, idx.count (Slot.occupied i) = if i < t then 1 else 0) ∧
  (∀ i < t, Reach idx (entryHash F i) i)

theorem empty_ne_deleted : ¬ (Slot.empty = Slot.deleted) := fun h => Slot.noConfusion h

theorem occ_ne_deleted (t : Nat) : ¬ (Slot.occupied t = Slot.deleted) :=
  fun h => Slot.noConfusion h

theorem occ_ne_empty (t : Nat) : ¬ (Slot.occupied t = Slot.empty) :=
  fun h => Slot.noConfusion h

theorem empty_ne_occ (t : Nat) : ¬ (Slot.empty = Slot.occupied t) :=
  fun h => Slot.noConfusion h

theorem deleted_ne_occ (t : Nat) : ¬ (Slot.deleted = Slot.occupied t) :=
  fun h => Slot.noConfusion h

theorem buildInv_init (F : List (Entry K V)) (cap : Nat) :
    BuildInv F cap 0 (List.replicate cap Slot.empty) := by
  refine ⟨List.length_replicate cap Slot.empty, ?_, ?_, ?_⟩
  · rw [List.count_replicate]
    simp
  · intro i
    rw [List.count_replicate]
    simp
  · intro i hi
    omega

theorem buildInv_step (F : List (Entry K V)) {cap t : Nat} {idx : List Slot}
    (hinv : BuildInv F cap t idx) (ht : t < cap) {e : Entry K V}
    (he : F[t]? = some e) :
    ∃ s, probeEmpty idx cap (e.hash % cap) cap = some s ∧
      BuildInv F cap (t + 1) (idx.set s (Slot.occupied t)) := by
  obtain ⟨hL, hdel, hocc, hreach⟩ := hinv
  have hcap : 0 < cap := by omega
  have hcnt : idx.countP nonEmptyB = t := by
    rw [countP_nonEmptyB, hdel, countP_isOcc_eq idx t hocc]
    omega
  have hex0 : ∃ p < idx.length, idx.getD p Slot.empty = Slot.empty :=
    exists_empty_getD idx (by omega)
  obtain ⟨p, hp, hpe⟩ := hex0
  have hstart : e.hash % cap < cap := Nat.mod_lt _ hcap
  obtain ⟨j, hj, hjp⟩ := exists_probe_offset hstart (by omega : p < cap)
  obtain ⟨k, hk, hpeq, hkemp, hkne⟩ := probeEmpty_found idx cap cap (e.hash % cap)
    hstart ⟨j, hj, by rw [hjp]; exact hpe⟩
  have hslt : (e.hash % cap + k) % cap < cap := Nat.mod_lt _ hcap
  have hslen : (e.hash % cap + k) % cap < idx.length := by omega
  refine ⟨(e.hash % cap + k) % cap, hpeq, ?_, ?_, ?_, ?_⟩
  · rw [List.length_set]
    exact hL
  · have hcs := count_set_eq idx ((e.hash % cap + k) % cap) (Slot.occupied t)
      Slot.deleted hslen
    rw [hkemp, if_neg empty_ne_deleted, if_neg (occ_ne_deleted t)] at hcs
    omega
  · intro i
    have hcs := count_set_eq idx ((e.hash % cap + k) % cap) (Slot.occupied t)
      (Slot.occupied i) hslen
    rw [hkemp, hocc i, if_neg (empty_ne_occ i)] at hcs
    by_cases hit : i = t
    · subst hit
      rw [if_pos rfl, if_neg (by omega : ¬ i < i)] at hcs
      rw [if_pos (by omega : i < i + 1)]
      omega
    · have hne : ¬ (Slot.occupied t = Slot.occupied i) :=
        fun h => hit (Slot.occupied.inj h).symm
      rw [if_neg hne] at hcs
      split_ifs at hcs ⊢ <;> omega
  · intro i hi
    have hLset : (idx.set ((e.hash % cap + k) % cap) (Slot.occupied t)).length
        = idx.length := List.length_set ..
    by_cases hit : i = t
    · subst hit
      have hhash : entryHash F i = e.hash := by
        unfold entryHash
        rw [he]
      refine ⟨k, ?_, ?_, ?_⟩
      · omega
      · rw [hLset, hL, hhash]
        rw [set_getD_self hslen]
      · intro j2 hj2
        rw [hLset, hL, hhash]
        have hnepos : (e.hash % cap + j2) % cap ≠ (e.hash % cap + k) % cap := by
          intro hcontra
          exact absurd (probe_pos_inj (e.hash % cap) (by omega) hk hcontra) (by omega)
        rw [set_getD_ne (Ne.symm hnepos)]
        exact hkne j2 hj2
    · obtain ⟨ki, hki, htgt, hpre⟩ := hreach i (by omega)
      refine ⟨ki, by omega, ?_, ?_⟩
      · rw [hLset]
        have hne : (entryHash F i % idx.length + ki) % idx.length
            ≠ (e.hash % cap + k) % cap := by
          intro hcontra
          rw [hcontra, hkemp] at htgt
          cases htgt
        rw [set_getD_ne (Ne.symm hne)]
        exact htgt
      · intro j2 hj2
        rw [hLset]
        by_cases hps : (entryHash F i % idx.length + j2) % idx.length
            = (e.hash % cap + k) % cap
        · rw [hps, set_getD_self hslen]
          exact occ_ne_empty t
        · rw [set_getD_ne (Ne.symm hps)]
          exact hpre j2 hj2

theorem buildIndexGo_inv (F : List (Entry K V)) (cap : Nat)
    (hlen : F.length ≤ cap) :
    ∀ (rest done : List (Entry K V)) (idx : List Slot),
    F = done ++ rest →
    BuildInv F cap done.length idx →
    BuildInv F cap F.length (buildIndexGo cap rest done.length idx) := by
  intro rest
  induction rest with
  | nil =>
    intro done idx hF hinv
    unfold buildIndexGo
    have : done.length = F.length := by
      rw [hF, List.append_nil]
    rw [← this]
    exact hinv
  | cons e es ih =>
    intro done idx hF hinv
    have hflen : F.length = done.length + (es.length + 1) := by
      rw [hF]
      simp
    have ht : done.length < cap := by omega
    have he : F[done.length]? = some e := by
      rw [hF, List.getElem?_append_right (le_refl done.length)]
      simp
    obtain ⟨s, hps, hinv2⟩ := buildInv_step F hinv ht he
    unfold buildIndexGo
    rw [hps]
    have hF2 : F = (done ++ [e]) ++ es := by
      rw [hF]
      simp
    have := ih (done ++ [e]) (idx.set s (Slot.occupied done.length)) hF2
      (by simpa using hinv2)
    simpa using this

/-- `reallocate_reindex` rebuilds a well-formed state: entries preserved,
fresh index of the requested capacity, no tombstones. -/
theorem reallocateReindex_spec (hf : K → Nat) {m : OMap K V}
    (hhash : ∀ e ∈ m.entries, e.hash = hf e.key)
    (hnd : (m.entries.map (·.key)).Nodup)
    {newCap : Nat} (hcap : m.entries.length ≤ newCap) :
    (reallocateReindex m newCap).entries = m.entries ∧
    (reallocateReindex m newCap).ecap = newCap ∧
    (reallocateReindex m newCap).deleted = 0 ∧
    capacity (reallocateReindex m newCap) = newCap ∧
    (reallocateReindex m newCap).index.count Slot.deleted = 0 ∧
    WF hf (reallocateReindex m newCap) := by
  have hinv : BuildInv m.entries newCap m.entries.length
      (buildIndexGo newCap m.entries 0 (List.replicate newCap Slot.empty)) := by
    have := buildIndexGo_inv m.entries newCap hcap m.entries []
      (List.replicate newCap Slot.empty) (by simp) (buildInv_init m.entries newCap)
    simpa using this
  obtain ⟨hL, hdel, hocc, hreach⟩ := hinv
  have hres : reallocateReindex m newCap =
      { entries := m.entries, ecap := newCap,
        index := buildIndexGo newCap m.entries 0 (List.replicate newCap Slot.empty),
        deleted := 0 } := by
    unfold reallocateReindex buildIndex resetIndex capacity
    simp
  rw [hres]
  refine ⟨rfl, rfl, rfl, hL, hdel, ?_⟩
  refine ⟨hL.symm ▸ rfl, by simpa [hL] using hcap, hhash, hnd, by rw [hdel], ?_, ?_⟩
  · intro s hs
    cases hsv : s with
    | empty => trivial
    | deleted => trivial
    | occupied i =>
      show i < m.entries.length
      by_contra hge
      have : List.count (Slot.occupied i) (buildIndexGo newCap m.entries 0
          (List.replicate newCap Slot.empty)) = 0 := by
        rw [hocc i, if_neg (by omega)]
      exact (List.count_eq_zero.mp this) (hsv ▸ hs)
  · intro i hi
    exact ⟨by rw [hocc i, if_pos hi], hreach i hi⟩

/-! ### Growth arithmetic -/

/-- The fuel-based binary logarithm agrees with `Nat.log2` whenever the fuel
covers the argument (`log2Go` exists because the kernel cannot unfold the
well-founded recursion of `Nat.log2`). -/
theorem log2Go_eq (fuel : Nat) : ∀ n, n ≤ fuel → log2Go fuel n = Nat.log2 n := by
  induction fuel with
  | zero =>
    intro n hn
    have hn0 : n = 0 := by omega
    subst hn0
    rw [Nat.log2]
    rfl
  | succ f ih =>
    intro n hn
    unfold log2Go
    rw [Nat.log2]
    split_ifs with h2
    · rw [ih (n / 2) (by omega)]
    · rfl

theorem le_nextPowTwo (n : Nat) : n ≤ nextPowTwo n := by
  unfold nextPowTwo
  split_ifs with h
  · omega
  · have h2 : n - 1 ≠ 0 := by omega
    rw [log2Go_eq (n - 1) (n - 1) (le_refl (n - 1))]
    have := (Nat.log2_lt h2).mp (Nat.lt_succ_self (Nat.log2 (n - 1)))
    omega

theorem grow_newCap_gt (cap : Nat) (hcap : 0 < cap) :
    cap < nextPowTwo ((4 * cap + 2) / 3) := by
  have h1 : cap + 1 ≤ (4 * cap + 2) / 3 := by
    rw [Nat.le_div_iff_mul_le (by omega : 0 < 3)]
    omega
  have h2 := le_nextPowTwo ((4 * cap + 2) / 3)
  omega

/-! ### Reach preservation under slot updates -/

/-- Overwriting a slot that does not hold `Occupied i` with a non-empty
value keeps ordinal `i` reachable. -/
theorem reach_set_preserved {idx : List Slot} {s : Nat} {b : Slot} {h i : Nat}
    (hs : s < idx.length) (hb : b ≠ Slot.empty)
    (hsv : idx.getD s Slot.empty ≠ Slot.occupied i)
    (hr : Reach idx h i) : Reach (idx.set s b) h i := by
  obtain ⟨k, hk, htgt, hpre⟩ := hr
  have hL : (idx.set s b).length = idx.length := List.length_set ..
  refine ⟨k, by omega, ?_, ?_⟩
  · rw [hL]
    have hne : (h % idx.length + k) % idx.length ≠ s := by
      intro hcontra
      rw [hcontra] at htgt
      exact hsv htgt
    rw [set_getD_ne (Ne.symm hne)]
    exact htgt
  · intro j hj
    rw [hL]
    by_cases hps : (h % idx.length + j) % idx.length = s
    · rw [hps, set_getD_self hs]
      exact hb
    · rw [set_getD_ne (Ne.symm hps)]
      exact hpre j hj

/-! ### `decrement_index` counting and reach lemmas -/

theorem decSlot_ne_empty (a : Nat) {s : Slot} (h : s ≠ Slot.empty) :
    decSlot a s ≠ Slot.empty := by
  cases s with
  | empty => exact absurd rfl h
  | deleted => exact fun hh => Slot.noConfusion hh
  | occupied t =>
    simp only [decSlot]
    split_ifs <;> exact occ_ne_empty _

theorem decr_getD (l : List Slot) (a p : Nat) :
    (decrementIndex l a).getD p Slot.empty = decSlot a (l.getD p Slot.empty) := by
  unfold decrementIndex
  by_cases hp : p < l.length
  · rw [List.getD_eq_getElem?_getD, List.getElem?_map,
      List.getElem?_eq_getElem hp, List.getD_eq_getElem?_getD,
      List.getElem?_eq_getElem hp]
    rfl
  · rw [List.getD_eq_getElem?_getD, List.getElem?_eq_none (by simpa using hp),
      List.getD_eq_getElem?_getD, List.getElem?_eq_none (by omega : l.length ≤ p)]
    rfl

theorem count_decr_deleted (l : List Slot) (a : Nat) :
    (decrementIndex l a).count Slot.deleted = l.count Slot.deleted := by
  unfold decrementIndex
  induction l with
  | nil => rfl
  | cons s t ih =>
    rw [List.map_cons, List.count_cons, List.count_cons, ih]
    simp only [beq_iff_eq]
    have : (decSlot a s = Slot.deleted) ↔ (s = Slot.deleted) := by
      cases s with
      | empty => simp only [decSlot]
      | deleted => simp only [decSlot]
      | occupied u =>
        simp only [decSlot]
        constructor
        · intro h
          split_ifs at h <;> exact absurd h (occ_ne_deleted _)
        · intro h
          exact absurd h (occ_ne_deleted _)
    by_cases h : s = Slot.deleted
    · rw [if_pos (this.mpr h), if_pos h]
    · rw [if_neg (fun hh => h (this.mp hh)), if_neg h]

theorem count_decr_occ_lt (l : List Slot) (a j : Nat) (hj : j < a) :
    (decrementIndex l a).count (Slot.occupied j) = l.count (Slot.occupied j) := by
  unfold decrementIndex
  induction l with
  | nil => rfl
  | cons s t ih =>
    rw [List.map_cons, List.count_cons, List.count_cons, ih]
    simp only [beq_iff_eq]
    have : (decSlot a s = Slot.occupied j) ↔ (s = Slot.occupied j) := by
      cases s with
      | empty => simp only [decSlot]
      | deleted => simp only [decSlot]
      | occupied u =>
        simp only [decSlot]
        split_ifs with hu
        · constructor
          · intro h
            have := Slot.occupied.inj h
            omega
          · intro h
            have := Slot.occupied.inj h
            omega
        · exact Iff.rfl
    by_cases h : s = Slot.occupied j
    · rw [if_pos (this.mpr h), if_pos h]
    · rw [if_neg (fun hh => h (this.mp hh)), if_neg h]

theorem count_decr_occ_ge (l : List Slot) (a j : Nat) (hj : a ≤ j)
    (hno : Slot.occupied a ∉ l) :
    (decrementIndex l a).count (Slot.occupied j)
      = l.count (Slot.occupied (j + 1)) := by
  unfold decrementIndex
  induction l with
  | nil => rfl
  | cons s t ih =>
    have hno2 : Slot.occupied a ∉ t := fun h => hno (List.mem_cons_of_mem s h)
    rw [List.map_cons, List.count_cons, List.count_cons, ih hno2]
    simp only [beq_iff_eq]
    have hs_ne : s ≠ Slot.occupied a := fun h => hno (h ▸ List.mem_cons_self s t)
    have : (decSlot a s = Slot.occupied j) ↔ (s = Slot.occupied (j + 1)) := by
      cases s with
      | empty => simp only [decSlot]; exact ⟨fun h => absurd h (empty_ne_occ j), fun h => absurd h (empty_ne_occ (j + 1))⟩
      | deleted => simp only [decSlot]; exact ⟨fun h => absurd h (deleted_ne_occ j), fun h => absurd h (deleted_ne_occ (j + 1))⟩
      | occupied u =>
        have hu_ne : u ≠ a := fun h => hs_ne (by rw [h])
        simp only [decSlot]
        split_ifs with hu
        · constructor
          · intro h
            have := Slot.occupied.inj h
            have huj : u = j + 1 := by omega
            rw [huj]
          · intro h
            have := Slot.occupied.inj h
            have huj : u - 1 = j := by omega
            rw [huj]
        · constructor
          · intro h
            have := Slot.occupied.inj h
            omega
          · intro h
            have := Slot.occupied.inj h
            omega
    by_cases h : decSlot a s = Slot.occupied j
    · rw [if_pos h, if_pos (this.mp h)]
    · rw [if_neg h, if_neg (fun hh => h (this.mpr hh))]

/-! ### `ensure_capacity` -/

theorem ensureCapacity_spec (hf : K → Nat) {m : OMap K V} (hm : WF hf m) :
    WF hf (ensureCapacity m) ∧ (ensureCapacity m).entries = m.entries ∧
    size (ensureCapacity m) + (ensureCapacity m).deleted
      < capacity (ensureCapacity m) := by
  unfold ensureCapacity
  split_ifs with hcap
  · have hlen : m.entries.length = 0 := by
      have := hm.load_le
      unfold capacity at hcap
      omega
    have hdel : m.deleted = 0 := by
      have := hm.load_le
      unfold capacity at hcap
      omega
    have hent : m.entries = [] := List.length_eq_zero.mp hlen
    refine ⟨?_, rfl, ?_⟩
    · refine ⟨rfl, ?_, ?_, ?_, ?_, ?_, ?_⟩
      · simp [hlen, hdel]
      · intro e he
        rw [hent] at he
        cases he
      · rw [hent]
        exact List.nodup_nil
      · simp [hdel, List.count_cons]
      · intro s hs
        rcases List.mem_singleton.mp hs with rfl
        trivial
      · intro i hi
        rw [hlen] at hi
        omega
    · unfold size capacity
      simp [hlen, hdel]
  · unfold maybeGrow
    split_ifs with hload
    · have hcap0 : 0 < capacity m := by
        unfold capacity at hcap ⊢
        omega
      have hlen_le : m.entries.length ≤ capacity m := by
        have := hm.load_le
        unfold capacity
        omega
      have hgt := grow_newCap_gt (capacity m) hcap0
      have hle : m.entries.length ≤ nextPowTwo ((4 * capacity m + 2) / 3) := by
        omega
      obtain ⟨hent, hecap, hdel, hcapn, hdelcnt, hwf⟩ :=
        reallocateReindex_spec hf hm.hash_eq hm.keys_nodup hle
      refine ⟨hwf, hent, ?_⟩
      unfold size
      rw [hent, hdel, hcapn]
      omega
    · refine ⟨hm, rfl, ?_⟩
      unfold capacity at hcap
      unfold size capacity at hload ⊢
      omega

/-! ### `insert` -/

theorem capacity_def (m : OMap K V) : capacity m = m.index.length := rfl

theorem size_def (m : OMap K V) : size m = m.entries.length := rfl

/-- Abstract effect of `insert` on the insertion-ordered pair sequence:
update in place when the key is present, append otherwise. -/
def insertA (l : List (K × V)) (k : K) (v : V) : List (K × V) :=
  if k ∈ l.map Prod.fst then l.map fun p => if p.1 = k then (p.1, v) else p
  else l ++ [(k, v)]

theorem toPairs_map_fst (m : OMap K V) :
    (toPairs m).map Prod.fst = m.entries.map (·.key) := by
  unfold toPairs
  rw [List.map_map]
  rfl

theorem set_getElem?_self {α : Type} {l : List α} {i : Nat} {a : α}
    (h : l[i]? = some a) : l.set i a = l := by
  apply List.ext_getElem?
  intro j
  by_cases hji : i = j
  · subst hji
    rw [List.getElem?_set_self (lt_of_get?_eq_some h), h]
  · rw [List.getElem?_set_ne hji]

theorem entryHash_set {es : List (Entry K V)} {i : Nat} {e : Entry K V}
    (he : es[i]? = some e) (v : V) (j : Nat) :
    entryHash (es.set i { e with value := v }) j = entryHash es j := by
  unfold entryHash
  by_cases hji : j = i
  · subst hji
    rw [List.getElem?_set_self (lt_of_get?_eq_some he), he]
  · rw [List.getElem?_set_ne (fun h => hji h.symm)]

theorem slotOrdLt_mono {n : Nat} {s : Slot} (h : SlotOrdLt n s) :
    SlotOrdLt (n + 1) s := by
  cases s with
  | empty => trivial
  | deleted => trivial
  | occupied i =>
    show i < n + 1
    have : i < n := h
    omega

theorem entryHash_append_left {es : List (Entry K V)} (e2 : Entry K V)
    {j : Nat} (hj : j < es.length) :
    entryHash (es ++ [e2]) j = entryHash es j := by
  unfold entryHash
  rw [List.getElem?_append_left hj]

/-- The central lemma for `OmniMap::insert`: it preserves well-formedness,
acts on the pair sequence as update-in-place or append, and returns the
previously associated value. -/
theorem insert_spec (hf : K → Nat) {m : OMap K V} (hm : WF hf m) (k : K) (v : V) :
    WF hf (insert hf m k v).1 ∧
    toPairs (insert hf m k v).1 = insertA (toPairs m) k v ∧
    (insert hf m k v).2 = lookupA (toPairs m) k := by
  obtain ⟨hm1, hent, hstrict⟩ := ensureCapacity_spec hf hm
  rw [size_def, capacity_def] at hstrict
  have hcap1 : 0 < (ensureCapacity m).index.length := by omega
  by_cases hex : ∃ e ∈ m.entries, e.key = k
  · -- the key is present: update in place
    obtain ⟨e, hemem, hkey⟩ := hex
    obtain ⟨i, hi, hie⟩ := List.mem_iff_getElem.mp hemem
    have he : m.entries[i]? = some e := by
      rw [List.getElem?_eq_getElem hi, hie]
    have he1 : (ensureCapacity m).entries[i]? = some e := by
      rw [hent]
      exact he
    obtain ⟨s, hfs, hgd⟩ := findSlot_some_of_mem hf hm1 he1
    have hhash : e.hash = hf k := by
      rw [hm1.hash_eq e (by rw [hent]; exact hemem), hkey]
    rw [hhash, hkey] at hfs
    have hres : insert hf m k v =
        ({ ensureCapacity m with
            entries := (ensureCapacity m).entries.set i { e with value := v } },
          some e.value) := by
      unfold insert
      simp only [hfs, he1]
    rw [hres]
    dsimp only
    refine ⟨?_, ?_, ?_⟩
    · -- well-formedness of the updated map
      have hlen : ((ensureCapacity m).entries.set i
          { e with value := v }).length = (ensureCapacity m).entries.length :=
        List.length_set ..
      have hkeys : ((ensureCapacity m).entries.set i
          { e with value := v }).map (·.key) = (ensureCapacity m).entries.map (·.key) := by
        rw [List.map_set]
        exact set_getElem?_self (by rw [List.getElem?_map, he1]; rfl)
      refine ⟨hm1.ecap_eq, ?_, ?_, ?_, hm1.del_count, ?_, ?_⟩
      · rw [hlen]
        exact hm1.load_le
      · intro e2 he2
        rcases List.mem_or_eq_of_mem_set he2 with hmem | rfl
        · exact hm1.hash_eq e2 hmem
        · show e.hash = hf e.key
          exact hm1.hash_eq e (mem_of_get? he1)
      · rw [hkeys]
        exact hm1.keys_nodup
      · intro s2 hs2
        rw [hlen]
        exact hm1.ord_lt s2 hs2
      · intro j hj
        rw [hlen] at hj
        refine ⟨hm1.occ_one j hj, ?_⟩
        rw [entryHash_set he1 v j]
        exact hm1.reach j hj
    · -- pair-sequence effect: in-place update
      have hmemfst : k ∈ (toPairs m).map Prod.fst := by
        rw [toPairs_map_fst]
        exact hkey ▸ List.mem_map_of_mem (·.key) hemem
      unfold insertA
      rw [if_pos hmemfst]
      unfold toPairs
      rw [hent]
      apply List.ext_getElem?
      intro j
      rw [List.getElem?_map, List.getElem?_map, List.getElem?_map]
      by_cases hji : j = i
      · subst hji
        rw [List.getElem?_set_self (lt_of_get?_eq_some he), he]
        simp only [Option.map_some']
        rw [if_pos hkey]
      · rw [List.getElem?_set_ne (fun h => hji h.symm)]
        cases hj2 : m.entries[j]? with
        | none => rfl
        | some e2 =>
          simp only [Option.map_some']
          have hne : ¬ e2.key = k := by
            intro hc
            exact hji (ord_eq_of_key_eq hm.keys_nodup hj2 he (by rw [hc, hkey]))
          rw [if_neg hne]
    · -- returned value is the prior association
      rw [lookupA_toPairs, ← hkey, nodup_find?_eq hm.keys_nodup he]
      rfl
  · -- the key is absent: append a fresh entry
    push_neg at hex
    have habs1 : ∀ e ∈ (ensureCapacity m).entries, ¬ e.key = k := by
      rw [hent]
      exact hex
    have hnone := findSlot_none_of_absent k habs1 (hf k)
    rcases hfs : findSlot (ensureCapacity m) (hf k) k with ⟨s, oi⟩
    rw [hfs] at hnone
    cases oi with
    | some j => cases hnone
    | none =>
    have hcnt := hm1.count_nonEmpty
    obtain ⟨p, hp, hpe⟩ := exists_empty_getD (ensureCapacity m).index (by omega)
    have hstart : hf k % (ensureCapacity m).index.length
        < (ensureCapacity m).index.length := Nat.mod_lt _ hcap1
    obtain ⟨j0, hj0, hj0p⟩ := exists_probe_offset hstart (by omega : p < (ensureCapacity m).index.length)
    have hfsgo : findSlotGo (ensureCapacity m).index (ensureCapacity m).entries k
        ((ensureCapacity m).index.length)
        (hf k % (ensureCapacity m).index.length)
        ((ensureCapacity m).index.length) = (s, none) := hfs
    obtain ⟨k0, hk0, hseq, hsemp, hsne, hsnom⟩ :=
      findSlotGo_none_inv (ensureCapacity m).index (ensureCapacity m).entries k
        ((ensureCapacity m).index.length) ((ensureCapacity m).index.length)
        (hf k % (ensureCapacity m).index.length) hstart
        ⟨j0, hj0, by rw [hj0p]; exact hpe⟩ s hfsgo
    have hslen : s < (ensureCapacity m).index.length := by
      rw [hseq]
      exact Nat.mod_lt _ hcap1
    have hres : insert hf m k v =
        ({ ensureCapacity m with
            index := (ensureCapacity m).index.set s
              (Slot.occupied (ensureCapacity m).entries.length),
            entries := (ensureCapacity m).entries ++ [⟨k, v, hf k⟩] },
          none) := by
      unfold insert
      simp only [hfs]
    rw [hres]
    dsimp only
    have hL : ((ensureCapacity m).entries ++ [(⟨k, v, hf k⟩ : Entry K V)]).length
        = (ensureCapacity m).entries.length + 1 := by
      rw [List.length_append]
      rfl
    refine ⟨?_, ?_, ?_⟩
    · -- well-formedness of the extended map
      refine ⟨?_, ?_, ?_, ?_, ?_, ?_, ?_⟩
      · rw [List.length_set]
        exact hm1.ecap_eq
      · dsimp only
        rw [hL, List.length_set]
        omega
      · intro e2 he2
        rcases List.mem_append.mp he2 with hmem | hmem
        · exact hm1.hash_eq e2 hmem
        · rcases List.mem_singleton.mp hmem with rfl
          rfl
      · rw [List.map_append]
        rw [List.nodup_append]
        refine ⟨hm1.keys_nodup, List.nodup_singleton k, ?_⟩
        intro a ha hb
        rcases List.mem_singleton.mp hb with rfl
        obtain ⟨e2, he2mem, he2key⟩ := List.mem_map.mp ha
        exact habs1 e2 he2mem he2key
      · have hcs := count_set_eq (ensureCapacity m).index s
          (Slot.occupied (ensureCapacity m).entries.length) Slot.deleted hslen
        rw [hsemp, if_neg empty_ne_deleted, if_neg (occ_ne_deleted _)] at hcs
        dsimp only
        rw [← hm1.del_count]
        omega
      · intro s2 hs2
        rw [hL]
        rcases List.mem_or_eq_of_mem_set hs2 with hmem | rfl
        · exact slotOrdLt_mono (hm1.ord_lt s2 hmem)
        · show (ensureCapacity m).entries.length < (ensureCapacity m).entries.length + 1
          omega
      · intro i hi
        dsimp only
        rw [hL] at hi
        have hcs := count_set_eq (ensureCapacity m).index s
          (Slot.occupied (ensureCapacity m).entries.length) (Slot.occupied i) hslen
        rw [hsemp, if_neg (empty_ne_occ i), hm1.occ_count i] at hcs
        by_cases hiL : i = (ensureCapacity m).entries.length
        · rw [if_neg (show ¬ i < (ensureCapacity m).entries.length by omega),
            if_pos (show Slot.occupied (ensureCapacity m).entries.length
              = Slot.occupied i by rw [hiL])] at hcs
          refine ⟨by omega, ?_⟩
          have hhashnew : entryHash ((ensureCapacity m).entries ++ [⟨k, v, hf k⟩]) i
              = hf k := by
            unfold entryHash
            rw [hiL, List.getElem?_concat_length]
          rw [hhashnew]
          have hLset : ((ensureCapacity m).index.set s
              (Slot.occupied (ensureCapacity m).entries.length)).length
              = (ensureCapacity m).index.length := List.length_set ..
          refine ⟨k0, by rw [hLset]; omega, ?_, ?_⟩
          · rw [hLset, ← hseq, set_getD_self hslen, hiL]
          · intro j2 hj2
            rw [hLset]
            have hne : (hf k % (ensureCapacity m).index.length + j2)
                % (ensureCapacity m).index.length ≠ s := by
              rw [hseq]
              intro hcontra
              exact absurd (probe_pos_inj _ (by omega) (by omega) hcontra) (by omega)
            rw [set_getD_ne (Ne.symm hne)]
            exact hsne j2 hj2
        · have hiL2 : i < (ensureCapacity m).entries.length := by omega
          rw [if_neg (fun h => hiL (Slot.occupied.inj h).symm), if_pos hiL2] at hcs
          refine ⟨by omega, ?_⟩
          rw [entryHash_append_left _ hiL2]
          exact reach_set_preserved hslen (occ_ne_empty _)
            (by rw [hsemp]; exact empty_ne_occ i) (hm1.reach i hiL2)
    · -- pair-sequence effect: append
      have hnot : k ∉ (toPairs m).map Prod.fst := by
        rw [toPairs_map_fst]
        intro hmem
        obtain ⟨e2, he2mem, he2key⟩ := List.mem_map.mp hmem
        exact hex e2 he2mem he2key
      unfold insertA
      rw [if_neg hnot]
      unfold toPairs
      rw [hent, List.map_append]
      rfl
    · -- no prior association
      rw [lookupA_toPairs]
      have hfind : m.entries.find? (fun e => decide (e.key = k)) = none := by
        rw [List.find?_eq_none]
        intro x hx
        simpa using hex x hx
      rw [hfind]
      rfl

/-! ### `remove`, `pop`, `pop_front` -/

theorem lt_length_of_getD_occ {idx : List Slot} {s i : Nat}
    (h : idx.getD s Slot.empty = Slot.occupied i) : s < idx.length := by
  by_contra hc
  rw [List.getD_eq_getElem?_getD, List.getElem?_eq_none (by omega)] at h
  exact empty_ne_occ i h

theorem eraseIdx_length_sub_one {α : Type} (l : List α) :
    l.eraseIdx (l.length - 1) = l.dropLast := by
  induction l with
  | nil => rfl
  | cons x t ih =>
    cases t with
    | nil => rfl
    | cons y u =>
      show (x :: y :: u).eraseIdx ((y :: u).length) = _
      rw [show (y :: u).length = u.length + 1 from rfl, List.eraseIdx_cons_succ]
      have : (y :: u).eraseIdx ((y :: u).length - 1) = (y :: u).dropLast := ih
      rw [show (y :: u).length - 1 = u.length from rfl] at this
      rw [this]
      rfl

/-- With unique keys, filtering out the key loaded at ordinal `i` erases
exactly position `i`. -/
theorem filter_eq_eraseIdx {es : List (Entry K V)}
    (hnd : (es.map (·.key)).Nodup) {i : Nat} {e : Entry K V}
    (he : es[i]? = some e) :
    es.filter (fun x => decide (¬ x.key = e.key)) = es.eraseIdx i := by
  induction es generalizing i with
  | nil => cases he
  | cons x t ih =>
    have hnd2 : x.key ∉ t.map (·.key) ∧ (t.map (·.key)).Nodup := by
      rw [List.map_cons, List.nodup_cons] at hnd
      exact hnd
    obtain ⟨hx, hndt⟩ := hnd2
    cases i with
    | zero =>
      rw [List.getElem?_cons_zero] at he
      have hxe : x = e := by injection he
      subst hxe
      rw [List.eraseIdx_cons_zero]
      have hstep : (x :: t).filter (fun y => decide (¬ y.key = x.key))
          = t.filter (fun y => decide (¬ y.key = x.key)) := by
        simp
      rw [hstep, List.filter_eq_self]
      intro a ha
      have : a.key ≠ x.key := by
        intro hc
        exact hx (hc ▸ List.mem_map_of_mem (·.key) ha)
      simpa using this
    | succ j =>
      rw [List.getElem?_cons_succ] at he
      have hne : x.key ≠ e.key := by
        intro hc
        exact hx (hc ▸ List.mem_map_of_mem (·.key) (mem_of_get? he))
      have hstep : (x :: t).filter (fun y => decide (¬ y.key = e.key))
          = x :: t.filter (fun y => decide (¬ y.key = e.key)) := by
        simp [hne]
      rw [List.eraseIdx_cons_succ, hstep, ih hndt he]

theorem map_dropLast {α β : Type} (f : α → β) (l : List α) :
    (l.dropLast).map f = (l.map f).dropLast := by
  rw [List.dropLast_eq_take, List.dropLast_eq_take, List.map_take, List.length_map]

theorem map_tail {α β : Type} (f : α → β) (l : List α) :
    (l.tail).map f = (l.map f).tail := by
  rw [← List.drop_one, ← List.drop_one, List.map_drop]

/-- Reach survives `decrement_index`: the target ordinal follows the
decrement and no slot on the path becomes empty. -/
theorem reach_decr {idx1 : List Slot} {a h : Nat} (told : Nat) {j : Nat}
    (hj : decSlot a (Slot.occupied told) = Slot.occupied j)
    (hr : Reach idx1 h told) : Reach (decrementIndex idx1 a) h j := by
  obtain ⟨k, hk, htgt, hpre⟩ := hr
  have hL : (decrementIndex idx1 a).length = idx1.length := List.length_map ..
  refine ⟨k, by omega, ?_, ?_⟩
  · rw [hL, decr_getD, htgt]
    exact hj
  · intro j2 hj2
    rw [hL, decr_getD]
    exact decSlot_ne_empty a (hpre j2 hj2)

/-- Removing the last entry: mark its slot `Deleted` and drop the entry.
Establishes well-formedness of the result (the `take_last` path shared by
`remove` and `pop`). -/
theorem removeLast_WF (hf : K → Nat) {m : OMap K V} (hm : WF hf m) {s : Nat}
    (hlen : 0 < m.entries.length)
    (hs : m.index.getD s Slot.empty = Slot.occupied (m.entries.length - 1)) :
    WF hf { m with
        entries := m.entries.dropLast
        index := m.index.set s Slot.deleted
        deleted := m.deleted + 1 } := by
  have hslen : s < m.index.length := lt_length_of_getD_occ hs
  have hLd : m.entries.dropLast.length = m.entries.length - 1 :=
    List.length_dropLast ..
  have hnotin : Slot.occupied (m.entries.length - 1) ∉ m.index.set s Slot.deleted := by
    rw [← List.count_eq_zero]
    have hcs := count_set_eq m.index s Slot.deleted
      (Slot.occupied (m.entries.length - 1)) hslen
    rw [hs, if_pos rfl, if_neg (deleted_ne_occ _), hm.occ_one _ (by omega)] at hcs
    omega
  refine ⟨?_, ?_, ?_, ?_, ?_, ?_, ?_⟩
  all_goals try dsimp only
  · rw [List.length_set]
    exact hm.ecap_eq
  · rw [hLd, List.length_set]
    have := hm.load_le
    omega
  · intro e2 he2
    exact hm.hash_eq e2 ((List.dropLast_sublist m.entries).subset he2)
  · exact ((List.dropLast_sublist m.entries).map (·.key)).nodup hm.keys_nodup
  · have hcs := count_set_eq m.index s Slot.deleted Slot.deleted hslen
    rw [hs, if_neg (occ_ne_deleted _), if_pos rfl, hm.del_count] at hcs
    omega
  · intro s2 hs2
    rw [hLd]
    rcases List.mem_or_eq_of_mem_set hs2 with hmem | rfl
    · cases hsv : s2 with
      | empty => trivial
      | deleted => trivial
      | occupied j =>
        show j < m.entries.length - 1
        have hjL : j < m.entries.length := by
          have := hm.ord_lt s2 hmem
          rw [hsv] at this
          exact this
        have hne : j ≠ m.entries.length - 1 := by
          intro hc
          exact hnotin (hc ▸ hsv ▸ hs2)
        omega
    · trivial
  · intro j hj
    rw [hLd] at hj
    have hcs := count_set_eq m.index s Slot.deleted (Slot.occupied j) hslen
    rw [hs, if_neg (show Slot.occupied (m.entries.length - 1) = Slot.occupied j
        → False from fun h => by
          have := Slot.occupied.inj h
          omega),
      if_neg (deleted_ne_occ j), hm.occ_one j (by omega)] at hcs
    refine ⟨by omega, ?_⟩
    have hhash : entryHash m.entries.dropLast j = entryHash m.entries j := by
      unfold entryHash
      rw [List.dropLast_eq_take, List.getElem?_take, if_pos (by omega)]
    rw [hhash]
    exact reach_set_preserved hslen (fun h => Slot.noConfusion h)
      (by rw [hs]; intro h; have := Slot.occupied.inj h; omega)
      (hm.reach j (by omega))

/-- Removing the entry at ordinal `i` with the shift-left path: mark its
slot `Deleted`, erase the entry, decrement greater ordinals. Establishes
well-formedness (shared by `remove` and `pop_front`). -/
theorem removeAt_WF (hf : K → Nat) {m : OMap K V} (hm : WF hf m) {s i : Nat}
    (hi : i < m.entries.length)
    (hs : m.index.getD s Slot.empty = Slot.occupied i) :
    WF hf { m with
        entries := m.entries.eraseIdx i
        index := decrementIndex (m.index.set s Slot.deleted) i
        deleted := m.deleted + 1 } := by
  have hslen : s < m.index.length := lt_length_of_getD_occ hs
  have hLe : (m.entries.eraseIdx i).length = m.entries.length - 1 := by
    rw [List.length_eraseIdx, if_pos hi]
  have hnotin : Slot.occupied i ∉ m.index.set s Slot.deleted := by
    rw [← List.count_eq_zero]
    have hcs := count_set_eq m.index s Slot.deleted (Slot.occupied i) hslen
    rw [hs, if_pos rfl, if_neg (deleted_ne_occ _), hm.occ_one _ hi] at hcs
    omega
  have hLdec : (decrementIndex (m.index.set s Slot.deleted) i).length
      = m.index.length := by
    unfold decrementIndex
    rw [List.length_map, List.length_set]
  have hcount1 : ∀ j, j ≠ i → (m.index.set s Slot.deleted).count (Slot.occupied j)
      = m.index.count (Slot.occupied j) := by
    intro j hij
    have hcs := count_set_eq m.index s Slot.deleted (Slot.occupied j) hslen
    rw [hs, if_neg (fun h => hij (Slot.occupied.inj h).symm),
      if_neg (deleted_ne_occ j)] at hcs
    omega
  refine ⟨?_, ?_, ?_, ?_, ?_, ?_, ?_⟩
  all_goals try dsimp only
  · rw [hLdec]
    exact hm.ecap_eq
  · rw [hLe, hLdec]
    have := hm.load_le
    omega
  · intro e2 he2
    exact hm.hash_eq e2 ((List.eraseIdx_sublist m.entries i).subset he2)
  · exact ((List.eraseIdx_sublist m.entries i).map (·.key)).nodup hm.keys_nodup
  · have hcs := count_set_eq m.index s Slot.deleted Slot.deleted hslen
    rw [hs, if_neg (occ_ne_deleted _), if_pos rfl, hm.del_count] at hcs
    rw [count_decr_deleted]
    omega
  · intro s2 hs2
    rw [hLe]
    obtain ⟨s1, hs1mem, hdec⟩ := List.mem_map.mp hs2
    cases hs1v : s1 with
    | empty =>
      rw [hs1v] at hdec
      rw [← hdec]
      trivial
    | deleted =>
      rw [hs1v] at hdec
      rw [← hdec]
      trivial
    | occupied t =>
      rw [hs1v] at hdec
      have htL : t < m.entries.length := by
        rcases List.mem_or_eq_of_mem_set (hs1v ▸ hs1mem) with hmem | heq
        · exact hm.ord_lt _ hmem
        · exact absurd heq (occ_ne_deleted t)
      have hti : t ≠ i := by
        intro hc
        exact hnotin (hc ▸ hs1v ▸ hs1mem)
      rw [← hdec]
      simp only [decSlot]
      split_ifs with hit
      · show t - 1 < m.entries.length - 1
        omega
      · show t < m.entries.length - 1
        omega
  · intro j hj
    rw [hLe] at hj
    have hcnt : (decrementIndex (m.index.set s Slot.deleted) i).count
        (Slot.occupied j) = 1 := by
      by_cases hji : j < i
      · rw [count_decr_occ_lt _ _ _ hji, hcount1 j (by omega), hm.occ_one j (by omega)]
      · rw [count_decr_occ_ge _ _ _ (by omega) hnotin,
          hcount1 (j + 1) (by omega), hm.occ_one (j + 1) (by omega)]
    refine ⟨hcnt, ?_⟩
    by_cases hji : j < i
    · have hhash : entryHash (m.entries.eraseIdx i) j = entryHash m.entries j := by
        unfold entryHash
        rw [List.getElem?_eraseIdx, if_pos hji]
      rw [hhash]
      refine reach_decr j ?_ ?_
      · simp only [decSlot]
        rw [if_neg (show ¬ i < j by omega)]
      · exact reach_set_preserved hslen (fun h => Slot.noConfusion h)
          (by rw [hs]; intro h; have := Slot.occupied.inj h; omega)
          (hm.reach j (by omega))
    · have hhash : entryHash (m.entries.eraseIdx i) j
          = entryHash m.entries (j + 1) := by
        unfold entryHash
        rw [List.getElem?_eraseIdx, if_neg hji]
      rw [hhash]
      refine reach_decr (j + 1) ?_ ?_
      · simp only [decSlot]
        rw [if_pos (show i < j + 1 by omega), Nat.add_sub_cancel]
      · exact reach_set_preserved hslen (fun h => Slot.noConfusion h)
          (by rw [hs]; intro h; have := Slot.occupied.inj h; omega)
          (hm.reach (j + 1) (by omega))

/-- The central lemma for `OmniMap::remove`: it preserves well-formedness,
filters the removed key out of the pair sequence keeping the order of the
survivors, returns the previously associated value, and leaves the map
untouched when the key is absent. -/
theorem remove_spec (hf : K → Nat) {m : OMap K V} (hm : WF hf m) (k : K) :
    WF hf (remove hf m k).1 ∧
    toPairs (remove hf m k).1 = (toPairs m).filter (fun p => decide (¬ p.1 = k)) ∧
    (remove hf m k).2 = lookupA (toPairs m) k ∧
    (lookupA (toPairs m) k = none → (remove hf m k).1 = m) := by
  by_cases hlen : m.entries.length = 0
  · have hres : remove hf m k = (m, none) := by
      unfold remove
      rw [if_pos hlen]
    have hpairs : toPairs m = [] := by
      unfold toPairs
      rw [List.length_eq_zero.mp hlen]
      rfl
    rw [hres, hpairs]
    exact ⟨hm, rfl, rfl, fun _ => rfl⟩
  · by_cases hex : ∃ e ∈ m.entries, e.key = k
    · obtain ⟨e, hemem, hkey⟩ := hex
      obtain ⟨i, hi, hie⟩ := List.mem_iff_getElem.mp hemem
      have he : m.entries[i]? = some e := by
        rw [List.getElem?_eq_getElem hi, hie]
      obtain ⟨s, hfs, hgd⟩ := findSlot_some_of_mem hf hm he
      have hhash : e.hash = hf k := by
        rw [hm.hash_eq e hemem, hkey]
      rw [hhash, hkey] at hfs
      have hlook : lookupA (toPairs m) k = some e.value := by
        rw [lookupA_toPairs, ← hkey, nodup_find?_eq hm.keys_nodup he]
        rfl
      have hfilter : (toPairs m).filter (fun p => decide (¬ p.1 = k))
          = (m.entries.eraseIdx i).map fun e2 => (e2.key, e2.value) := by
        unfold toPairs
        rw [List.filter_map]
        have hcomp : ((fun p : K × V => decide (¬ p.1 = k))
            ∘ fun e2 : Entry K V => (e2.key, e2.value))
            = fun x : Entry K V => decide (¬ x.key = e.key) := by
          rw [hkey]
          rfl
        rw [hcomp, filter_eq_eraseIdx hm.keys_nodup he]
      by_cases hil : i = m.entries.length - 1
      · have hres : remove hf m k =
            ({ m with
                entries := m.entries.dropLast
                index := m.index.set s Slot.deleted
                deleted := m.deleted + 1 }, some e.value) := by
          unfold remove
          rw [if_neg hlen]
          simp only [hfs, he, Option.map_some']
          rw [if_pos hil]
        rw [hres]
        refine ⟨removeLast_WF hf hm (by omega) (hil ▸ hgd), ?_, by rw [hlook], ?_⟩
        · rw [hfilter, hil, eraseIdx_length_sub_one]
          rfl
        · intro hcontra
          rw [hlook] at hcontra
          cases hcontra
      · have hres : remove hf m k =
            ({ m with
                entries := m.entries.eraseIdx i
                index := decrementIndex (m.index.set s Slot.deleted) i
                deleted := m.deleted + 1 }, some e.value) := by
          unfold remove
          rw [if_neg hlen]
          simp only [hfs, he, Option.map_some']
          rw [if_neg hil]
        rw [hres]
        refine ⟨removeAt_WF hf hm hi hgd, ?_, by rw [hlook], ?_⟩
        · rw [hfilter]
          rfl
        · intro hcontra
          rw [hlook] at hcontra
          cases hcontra
    · push_neg at hex
      have hnone := findSlot_none_of_absent k (fun e2 he2 => hex e2 he2) (hf k)
      rcases hfs : findSlot m (hf k) k with ⟨s, oi⟩
      rw [hfs] at hnone
      cases oi with
      | some j => cases hnone
      | none =>
      have hres : remove hf m k = (m, none) := by
        unfold remove
        rw [if_neg hlen]
        simp only [hfs]
      have hfind : m.entries.find? (fun e2 => decide (e2.key = k)) = none := by
        rw [List.find?_eq_none]
        intro x hx
        simpa using hex x hx
      rw [hres]
      refine ⟨hm, ?_, ?_, fun _ => rfl⟩
      · rw [List.filter_eq_self.mpr]
        intro p hp
        obtain ⟨e2, he2mem, he2eq⟩ := List.mem_map.mp hp
        have : ¬ p.1 = k := by
          rw [← he2eq]
          exact hex e2 he2mem
        simpa using this
      · rw [lookupA_toPairs, hfind]
        rfl

/-- The central lemma for `OmniMap::pop`: drop the last entry, mark its
slot deleted; the pair sequence loses its last element, which is returned. -/
theorem pop_spec (hf : K → Nat) {m : OMap K V} (hm : WF hf m) :
    WF hf (pop m).1 ∧ toPairs (pop m).1 = (toPairs m).dropLast ∧
    (pop m).2 = (toPairs m).getLast? := by
  by_cases hlen : m.entries.length = 0
  · have hres : pop m = (m, none) := by
      unfold pop
      rw [if_pos hlen]
    have hpairs : toPairs m = [] := by
      unfold toPairs
      rw [List.length_eq_zero.mp hlen]
      rfl
    rw [hres, hpairs]
    exact ⟨hm, rfl, rfl⟩
  · obtain ⟨e, he⟩ : ∃ e, m.entries[m.entries.length - 1]? = some e := by
      have hlt : m.entries.length - 1 < m.entries.length := by omega
      exact ⟨_, List.getElem?_eq_getElem hlt⟩
    have hgl : m.entries.getLast? = some e := by
      rw [List.getLast?_eq_getElem?, he]
    obtain ⟨s, hfs, hgd⟩ := findSlot_some_of_mem hf hm he
    have hres : pop m =
        ({ m with
            entries := m.entries.dropLast
            index := m.index.set s Slot.deleted
            deleted := m.deleted + 1 }, some (e.key, e.value)) := by
      unfold pop
      rw [if_neg hlen]
      simp only [hgl, hfs]
    rw [hres]
    refine ⟨removeLast_WF hf hm (by omega) hgd, ?_, ?_⟩
    · show (m.entries.dropLast).map _ = _
      rw [map_dropLast]
      rfl
    · rw [List.getLast?_eq_getElem?]
      unfold toPairs
      rw [List.length_map, List.getElem?_map, he]
      rfl

/-- The central lemma for `OmniMap::pop_front`: remove the first entry with
the shift-left path; the pair sequence loses its head, which is returned. -/
theorem popFront_spec (hf : K → Nat) {m : OMap K V} (hm : WF hf m) :
    WF hf (popFront m).1 ∧ toPairs (popFront m).1 = (toPairs m).tail ∧
    (popFront m).2 = (toPairs m).head? := by
  by_cases hlen : m.entries.length = 0
  · have hres : popFront m = (m, none) := by
      unfold popFront
      rw [if_pos hlen]
    have hpairs : toPairs m = [] := by
      unfold toPairs
      rw [List.length_eq_zero.mp hlen]
      rfl
    rw [hres, hpairs]
    exact ⟨hm, rfl, rfl⟩
  · obtain ⟨e, he⟩ : ∃ e, m.entries[0]? = some e := by
      have hlt : 0 < m.entries.length := by omega
      exact ⟨_, List.getElem?_eq_getElem hlt⟩
    have hhd : m.entries.head? = some e := by
      rw [List.head?_eq_getElem?, he]
    obtain ⟨s, hfs, hgd⟩ := findSlot_some_of_mem hf hm he
    have hres : popFront m =
        ({ m with
            entries := m.entries.tail
            index := decrementIndex (m.index.set s Slot.deleted) 0
            deleted := m.deleted + 1 }, some (e.key, e.value)) := by
      unfold popFront
      rw [if_neg hlen]
      simp only [hhd, hfs]
    rw [hres]
    have hwf := removeAt_WF hf hm (by omega : 0 < m.entries.length) hgd
    rw [List.eraseIdx_zero] at hwf
    refine ⟨hwf, ?_, ?_⟩
    · show (m.entries.tail).map _ = _
      rw [map_tail]
      rfl
    · rw [List.head?_eq_getElem?]
      unfold toPairs
      rw [List.getElem?_map, he]
      rfl

/-! ### `clear`, `reserve`, `shrink_to`, `shrink_to_fit`, `clone_compact` -/

theorem clear_spec (hf : K → Nat) {m : OMap K V} (hm : WF hf m) :
    WF hf (clear m) ∧ toPairs (clear m) = [] ∧
    capacity (clear m) = capacity m ∧ (clear m).ecap = m.ecap := by
  unfold clear
  split_ifs with hlen
  · refine ⟨hm, ?_, rfl, rfl⟩
    unfold toPairs
    rw [List.length_eq_zero.mp hlen]
    rfl
  · have hent : ∀ (P : Entry K V → Prop), ∀ e ∈ ([] : List (Entry K V)), P e :=
      fun P e he => absurd he (List.not_mem_nil e)
    refine ⟨?_, rfl, ?_, rfl⟩
    · refine ⟨?_, ?_, ?_, ?_, ?_, ?_, ?_⟩
      all_goals try dsimp only
      · rw [List.length_replicate]
        exact hm.ecap_eq
      · simp only [List.length_nil, List.length_replicate]
        omega
      · intro e he
        cases he
      · exact List.nodup_nil
      · rw [List.count_replicate]
        simp
      · intro s hs
        rw [List.eq_of_mem_replicate hs]
        trivial
      · intro i hi
        cases hi
    · unfold capacity
      rw [List.length_replicate]

theorem reserve_spec (hf : K → Nat) {m : OMap K V} (hm : WF hf m) (n : Nat) :
    (reserve m n = none ↔ (n ≠ 0 ∧ m.ecap = 0)) ∧
    ∀ m2, reserve m n = some m2 →
      WF hf m2 ∧ capacity m2 = capacity m + n ∧ toPairs m2 = toPairs m := by
  unfold reserve
  split_ifs with h0 hecap
  · subst h0
    refine ⟨by simp, ?_⟩
    intro m2 h
    cases h
    exact ⟨hm, by omega, rfl⟩
  · exact ⟨by simp [h0, hecap], fun m2 h => by cases h⟩
  · refine ⟨by simp [hecap], ?_⟩
    intro m2 h
    cases h
    have hle : m.entries.length ≤ capacity m + n := by
      have := hm.load_le
      unfold capacity
      omega
    obtain ⟨hent, _, hdel, hcap, _, hwf⟩ :=
      reallocateReindex_spec hf hm.hash_eq hm.keys_nodup hle
    refine ⟨hwf, hcap, ?_⟩
    unfold toPairs
    rw [hent]

theorem shrinkTo_spec (hf : K → Nat) {m : OMap K V} (hm : WF hf m) (n : Nat) :
    WF hf (shrinkTo m n) ∧ toPairs (shrinkTo m n) = toPairs m ∧
    (m.entries.length ≤ n → n < capacity m → 0 < m.entries.length →
      capacity (shrinkTo m n) = n ∧ (shrinkTo m n).deleted = 0 ∧
      (shrinkTo m n).index.count Slot.deleted = 0) ∧
    (m.entries.length = 0 → n < capacity m →
      capacity (shrinkTo m n) = 0 ∧ (shrinkTo m n).ecap = 0 ∧
      (shrinkTo m n).deleted = 0) ∧
    (¬ (m.entries.length ≤ n ∧ n < capacity m) → shrinkTo m n = m) := by
  unfold shrinkTo
  split_ifs with hcond hpos
  · obtain ⟨hent, _, hdel, hcap, hdelcnt, hwf⟩ :=
      reallocateReindex_spec hf hm.hash_eq hm.keys_nodup (hcond.1 : m.entries.length ≤ n)
    refine ⟨hwf, ?_, fun _ _ _ => ⟨hcap, hdel, hdelcnt⟩, ?_, ?_⟩
    · unfold toPairs
      rw [hent]
    · intro hlen2 _
      exact absurd (hlen2 ▸ hpos) (lt_irrefl 0)
    · intro hc
      exact absurd hcond hc
  · have hlen : m.entries.length = 0 := by omega
    have hent : m.entries = [] := List.length_eq_zero.mp hlen
    refine ⟨?_, rfl, ?_, ?_, ?_⟩
    · refine ⟨?_, ?_, ?_, ?_, ?_, ?_, ?_⟩
      all_goals try dsimp only
      · rfl
      · rw [hlen]
        omega
      · intro e he
        rw [hent] at he
        cases he
      · rw [hent]
        exact List.nodup_nil
      · rfl
      · intro s hs
        cases hs
      · intro i hi
        rw [hlen] at hi
        omega
    · intro _ _ h3
      exact absurd h3 hpos
    · intro _ _
      exact ⟨rfl, rfl, rfl⟩
    · intro hc
      exact absurd hcond hc
  · exact ⟨hm, rfl, fun h1 h2 _ => absurd ⟨h1, h2⟩ hcond,
      fun h0 hn => absurd ⟨by omega, hn⟩ hcond, fun _ => rfl⟩

theorem shrinkToFit_spec (hf : K → Nat) {m : OMap K V} (hm : WF hf m) :
    WF hf (shrinkToFit m) ∧ toPairs (shrinkToFit m) = toPairs m ∧
    (0 < m.entries.length → m.entries.length < capacity m →
      capacity (shrinkToFit m) = m.entries.length) := by
  unfold shrinkToFit
  split_ifs with hcond hpos
  · obtain ⟨hent, _, hdel, hcap, hdelcnt, hwf⟩ :=
      reallocateReindex_spec hf hm.hash_eq hm.keys_nodup (le_refl m.entries.length)
    refine ⟨hwf, ?_, fun _ _ => hcap⟩
    unfold toPairs
    rw [hent]
  · have hlen : m.entries.length = 0 := by omega
    have hent : m.entries = [] := List.length_eq_zero.mp hlen
    refine ⟨?_, rfl, fun h _ => absurd h hpos⟩
    refine ⟨?_, ?_, ?_, ?_, ?_, ?_, ?_⟩
    all_goals try dsimp only
    · rfl
    · rw [hlen]
      omega
    · intro e he
      rw [hent] at he
      cases he
    · rw [hent]
      exact List.nodup_nil
    · rfl
    · intro s hs
      cases hs
    · intro i hi
      rw [hlen] at hi
      omega
  · exact ⟨hm, rfl, fun _ h2 => absurd h2 hcond⟩

theorem cloneCompact_eq (m : OMap K V) :
    cloneCompact m = reallocateReindex m m.entries.length := rfl

theorem cloneCompact_spec (hf : K → Nat) {m : OMap K V} (hm : WF hf m) :
    WF hf (cloneCompact m) ∧ capacity (cloneCompact m) = m.entries.length ∧
    (cloneCompact m).deleted = 0 ∧ (cloneCompact m).entries = m.entries ∧
    toPairs (cloneCompact m) = toPairs m := by
  rw [cloneCompact_eq]
  obtain ⟨hent, _, hdel, hcap, _, hwf⟩ :=
    reallocateReindex_spec hf hm.hash_eq hm.keys_nodup (le_refl m.entries.length)
  refine ⟨hwf, hcap, hdel, hent, ?_⟩
  unfold toPairs
  rw [hent]

/-! ### Operation sequences -/

/-- A public mutating operation of `OmniMap`, as named by the spec:
`insert`, `remove`, `pop`, `pop_front`, `clear`, `reserve`,
`shrink_to`, `shrink_to_fit`. -/
inductive Op (K V : Type) where
  | ins (k : K) (v : V)
  | rem (k : K)
  | popLast
  | popFirst
  | clearAll
  | reserveCap (n : Nat)
  | shrinkCap (n : Nat)
  | shrinkFit
deriving DecidableEq, Repr

/-- Run one public operation on the map. `none` models an aborted
execution, which only `reserve` on an unallocated map produces. -/
def applyOp (hf : K → Nat) (m : OMap K V) : Op K V → Option (OMap K V)
  | Op.ins k v => some (insert hf m k v).1
  | Op.rem k => some (remove hf m k).1
  | Op.popLast => some (pop m).1
  | Op.popFirst => some (popFront m).1
  | Op.clearAll => some (clear m)
  | Op.reserveCap n => reserve m n
  | Op.shrinkCap n => some (shrinkTo m n)
  | Op.shrinkFit => some (shrinkToFit m)

/-- Run a sequence of public operations, aborting on the first failure. -/
def runOps (hf : K → Nat) (m : OMap K V) : List (Op K V) → Option (OMap K V)
  | [] => some m
  | op :: ops =>
    match applyOp hf m op with
    | some m1 => runOps hf m1 ops
    | none => none

/-- The effect of one operation on the insertion-ordered key-value view:
`insert` updates in place or appends, `remove` filters the key out,
`pop` drops the last pair, `pop_front` drops the first, `clear` empties the
view, and the capacity operations leave it unchanged. -/
def stepA (l : List (K × V)) : Op K V → List (K × V)
  | Op.ins k v => insertA l k v
  | Op.rem k => l.filter fun p => decide (¬ p.1 = k)
  | Op.popLast => l.dropLast
  | Op.popFirst => l.tail
  | Op.clearAll => []
  | Op.reserveCap _ => l
  | Op.shrinkCap _ => l
  | Op.shrinkFit => l

/-- The basic entry-level operations of the iteration-order claim:
`insert`, `remove`, `pop` and `pop_front`. -/
def Op.basic : Op K V → Prop
  | Op.ins _ _ => True
  | Op.rem _ => True
  | Op.popLast => True
  | Op.popFirst => True
  | _ => False

instance (op : Op K V) : Decidable op.basic := by
  cases op <;> simp only [Op.basic] <;> infer_instance

theorem emptyMap_wf (hf : K → Nat) : WF hf (emptyMap K V) := by
  refine ⟨rfl, ?_, ?_, ?_, rfl, ?_, ?_⟩
  · exact le_refl 0
  · intro e he
    cases he
  · exact List.nodup_nil
  · intro s hs
    cases hs
  · intro i hi
    cases hi

theorem applyOp_spec (hf : K → Nat) {m : OMap K V} (hm : WF hf m) (op : Op K V) :
    ∀ m2, applyOp hf m op = some m2 → WF hf m2 ∧ toPairs m2 = stepA (toPairs m) op := by
  intro m2 h
  cases op with
  | ins k v =>
    cases h
    obtain ⟨hwf, hpairs, _⟩ := insert_spec hf hm k v
    exact ⟨hwf, hpairs⟩
  | rem k =>
    cases h
    obtain ⟨hwf, hpairs, _, _⟩ := remove_spec hf hm k
    exact ⟨hwf, hpairs⟩
  | popLast =>
    cases h
    obtain ⟨hwf, hpairs, _⟩ := pop_spec hf hm
    exact ⟨hwf, hpairs⟩
  | popFirst =>
    cases h
    obtain ⟨hwf, hpairs, _⟩ := popFront_spec hf hm
    exact ⟨hwf, hpairs⟩
  | clearAll =>
    cases h
    obtain ⟨hwf, hpairs, _, _⟩ := clear_spec hf hm
    exact ⟨hwf, hpairs⟩
  | reserveCap n =>
    obtain ⟨_, hsome⟩ := reserve_spec hf hm n
    obtain ⟨hwf, _, hpairs⟩ := hsome m2 h
    exact ⟨hwf, hpairs⟩
  | shrinkCap n =>
    cases h
    obtain ⟨hwf, hpairs, _⟩ := shrinkTo_spec hf hm n
    exact ⟨hwf, hpairs⟩
  | shrinkFit =>
    cases h
    obtain ⟨hwf, hpairs, _⟩ := shrinkToFit_spec hf hm
    exact ⟨hwf, hpairs⟩

theorem runOps_spec (hf : K → Nat) {m : OMap K V} (hm : WF hf m) (ops : List (Op K V)) :
    ∀ m2, runOps hf m ops = some m2 →
      WF hf m2 ∧ toPairs m2 = ops.foldl stepA (toPairs m) := by
  induction ops generalizing m with
  | nil =>
    intro m2 h
    have hmm : m = m2 := by injection h
    subst hmm
    exact ⟨hm, rfl⟩
  | cons op ops ih =>
    intro m2 h
    unfold runOps at h
    cases happ : applyOp hf m op with
    | none =>
      rw [happ] at h
      cases h
    | some m1 =>
      rw [happ] at h
      obtain ⟨hwf1, hpairs1⟩ := applyOp_spec hf hm op m1 happ
      obtain ⟨hwf2, hpairs2⟩ := ih hwf1 m2 h
      refine ⟨hwf2, ?_⟩
      rw [hpairs2, List.foldl_cons, hpairs1]

/-! ### Association-list lemmas for the claim statements -/

theorem find?_pairs_eq_none {l : List (K × V)} {k : K}
    (h : ¬ k ∈ l.map Prod.fst) : (l.find? fun p => decide (p.1 = k)) = none := by
  rw [List.find?_eq_none]
  intro p hp
  simp only [decide_eq_true_eq]
  intro hpk
  exact h (hpk ▸ List.mem_map_of_mem Prod.fst hp)

/-- Looking up the key just written by `insertA` yields the new value. -/
theorem lookupA_insertA (l : List (K × V)) (k : K) (v : V) :
    lookupA (insertA l k v) k = some v := by
  unfold insertA
  split_ifs with hmem
  · unfold lookupA
    induction l with
    | nil => cases hmem
    | cons p t ih =>
      simp only [List.map_cons]
      by_cases hp : p.1 = k
      · rw [if_pos hp, List.find?_cons_of_pos _ (by simp [hp])]
        rfl
      · rw [if_neg hp, List.find?_cons_of_neg _ (by simp [hp])]
        refine ih ?_
        rw [List.map_cons] at hmem
        rcases List.mem_cons.mp hmem with h1 | h2
        · exact absurd h1.symm hp
        · exact h2
  · unfold lookupA
    have hfind : ((l ++ [(k, v)]).find? fun p => decide (p.1 = k)) = some (k, v) := by
      rw [List.find?_append, find?_pairs_eq_none hmem]
      simp
    rw [hfind]
    rfl

/-- Filtering a key out of the view leaves other keys untouched at `find?`. -/
theorem find?_filter_ne (l : List (K × V)) (k k2 : K) (hne : ¬ k2 = k) :
    ((l.filter fun p => decide (¬ p.1 = k)).find? fun p => decide (p.1 = k2))
      = l.find? fun p => decide (p.1 = k2) := by
  induction l with
  | nil => rfl
  | cons p t ih =>
    by_cases hp : p.1 = k
    · rw [List.filter_cons_of_neg (by simp [hp]),
        List.find?_cons_of_neg _ (by simp [hp]; intro hc; exact hne hc.symm), ih]
    · rw [List.filter_cons_of_pos (by simp [hp])]
      by_cases hp2 : p.1 = k2
      · rw [List.find?_cons_of_pos _ (by simp [hp2]),
          List.find?_cons_of_pos _ (by simp [hp2])]
      · rw [List.find?_cons_of_neg _ (by simp [hp2]),
          List.find?_cons_of_neg _ (by simp [hp2]), ih]

theorem lookupA_filter_ne (l : List (K × V)) (k k2 : K) (hne : ¬ k2 = k) :
    lookupA (l.filter fun p => decide (¬ p.1 = k)) k2 = lookupA l k2 := by
  unfold lookupA
  rw [find?_filter_ne l k k2 hne]

/-- Looking up the filtered-out key fails. -/
theorem lookupA_filter_self (l : List (K × V)) (k : K) :
    lookupA (l.filter fun p => decide (¬ p.1 = k)) k = none := by
  have hfind : ((l.filter fun p => decide (¬ p.1 = k)).find?
      fun p => decide (p.1 = k)) = none := by
    rw [List.find?_eq_none]
    intro p hp
    have hmem := (List.mem_filter.mp hp).2
    simp only [decide_eq_true_eq] at hmem ⊢
    exact hmem
  unfold lookupA
  rw [hfind]
  rfl

/-- Positional access is the value component of the pair view. -/
theorem indexAt_toPairs (m : OMap K V) (i : Nat) :
    indexAt m i = ((toPairs m)[i]?).map Prod.snd := by
  unfold indexAt toPairs
  rw [List.getElem?_map]
  cases m.entries[i]? <;> rfl

/-- `insert` preserves the index length and the tombstone counter of the
capacity-ensured map: only `ensure_capacity` can change them. -/
theorem insert_frame (hf : K → Nat) (m : OMap K V) (k : K) (v : V) :
    capacity (insert hf m k v).1 = capacity (ensureCapacity m) ∧
    (insert hf m k v).1.deleted = (ensureCapacity m).deleted := by
  unfold insert
  dsimp only
  split
  · split
    · exact ⟨rfl, rfl⟩
    · exact ⟨rfl, rfl⟩
  · refine ⟨?_, rfl⟩
    unfold capacity
    dsimp only
    rw [List.length_set]

/-! ### Concrete maps and operation sequences used as evaluation inputs -/

/-- One entry, capacity 1: the state after `insert(1, 10)` on a new map. -/
def mapOne : OMap Nat Nat := ⟨[⟨1, 10, 1⟩], 1, [Slot.occupied 0], 0⟩

/-- Two entries, capacity 2. -/
def mapTwo : OMap Nat Nat :=
  (insert id (insert id (emptyMap Nat Nat) 1 10).1 2 20).1

/-- One live entry plus one tombstone, capacity 2. -/
def mapTomb : OMap Nat Nat :=
  (remove (id : Nat → Nat) (insert id (insert id (emptyMap Nat Nat) 1 10).1 2 20).1 2).1

/-- No live entries, but one tombstone left by removing the only key. -/
def mapEmptyTomb : OMap Nat Nat :=
  (remove (id : Nat → Nat) (insert id (emptyMap Nat Nat) 1 10).1 1).1

/-- One live entry plus one tombstone, capacity 2 (different keys). -/
def mapTombB : OMap Nat Nat :=
  (remove (id : Nat → Nat) (insert id (insert id (emptyMap Nat Nat) 3 30).1 4 40).1 4).1

/-- A mixed basic-operation sequence. -/
def opsBasic : List (Op Nat Nat) :=
  [Op.ins 1 10, Op.ins 2 20, Op.ins 3 30, Op.rem 2, Op.ins 4 40,
   Op.popLast, Op.popFirst, Op.ins 3 99]

/-- The state `opsBasic` reaches from the empty map. -/
def mapBasic : OMap Nat Nat :=
  ⟨[⟨3, 99, 3⟩], 8,
   [Slot.empty, Slot.empty, Slot.empty, Slot.occupied 0,
    Slot.empty, Slot.empty, Slot.empty, Slot.empty], 0⟩

/-- A sequence exercising every public operation. -/
def opsAll : List (Op Nat Nat) :=
  [Op.ins 1 10, Op.reserveCap 5, Op.ins 2 20, Op.rem 1, Op.shrinkCap 3,
   Op.clearAll, Op.ins 7 70, Op.shrinkFit, Op.popLast, Op.ins 9 90]

/-- The state `opsAll` reaches from the empty map. -/
def mapAll : OMap Nat Nat := ⟨[⟨9, 90, 9⟩], 2, [Slot.empty, Slot.occupied 0], 0⟩

/-! ### The claims -/

/-- Claim C1: on a well-formed map, `insert(k, v)` followed by `get(k)`
returns the new value, and `insert` returns exactly what `get(k)` returned
before the call (the prior value when the key was present, nothing
otherwise). -/
theorem claim_C1 (hf : K → Nat) {m : OMap K V} (hm : WF hf m) (k : K) (v : V) :
    get hf (insert hf m k v).1 k = some v ∧
    (insert hf m k v).2 = get hf m k := by
  obtain ⟨hwf, hpairs, hsnd⟩ := insert_spec hf hm k v
  refine ⟨?_, ?_⟩
  · rw [get_eq_lookupA hf hwf k, hpairs, lookupA_insertA]
  · rw [hsnd, get_eq_lookupA hf hm k]

theorem claim_C1_witness :
    get (id : Nat → Nat) (insert id (emptyMap Nat Nat) 5 7).1 5 = some 7 ∧
    (insert (id : Nat → Nat) (emptyMap Nat Nat) 5 7).2 = get id (emptyMap Nat Nat) 5 :=
  claim_C1 (id : Nat → Nat) (show WF id (emptyMap Nat Nat) by decide) 5 7

/-- Claim C2: on a well-formed map, `remove(k)` returns exactly what `get(k)`
returned (the associated value when present, nothing when absent); afterwards
`get(k)` is `none` while `get(k2)` is unchanged for every other key; and when
the key was absent the map is left untouched. -/
theorem claim_C2 (hf : K → Nat) {m : OMap K V} (hm : WF hf m) (k : K) :
    (remove hf m k).2 = get hf m k ∧
    get hf (remove hf m k).1 k = none ∧
    (∀ k2, ¬ k2 = k → get hf (remove hf m k).1 k2 = get hf m k2) ∧
    (get hf m k = none → (remove hf m k).1 = m) := by
  obtain ⟨hwf, hpairs, hsnd, hnone⟩ := remove_spec hf hm k
  refine ⟨?_, ?_, ?_, ?_⟩
  · rw [hsnd, get_eq_lookupA hf hm k]
  · rw [get_eq_lookupA hf hwf k, hpairs, lookupA_filter_self]
  · intro k2 hne
    rw [get_eq_lookupA hf hwf k2, hpairs, lookupA_filter_ne (toPairs m) k k2 hne,
      get_eq_lookupA hf hm k2]
  · intro h0
    exact hnone (get_eq_lookupA hf hm k ▸ h0)

theorem claim_C2_witness :
    (remove (id : Nat → Nat) mapTwo 1).2 = get id mapTwo 1 ∧
    get (id : Nat → Nat) (remove (id : Nat → Nat) mapTwo 1).1 1 = none ∧
    get (id : Nat → Nat) (remove (id : Nat → Nat) mapTwo 1).1 2 = get id mapTwo 2 := by
  have h := claim_C2 (id : Nat → Nat) (show WF id mapTwo by decide) 1
  exact ⟨h.1, h.2.1, h.2.2.1 2 (by decide)⟩

/-- Claim C3: after any sequence of the basic operations (`insert`, `remove`,
`pop`, `pop_front`) from a fresh map, the pair view that `iter()` yields
equals the abstract insertion-ordered fold of the sequence — insertions
update in place or append, removals filter their key out preserving the
relative order of survivors — and positional access at ordinal `i` is the
value of the i-th element of that view. -/
theorem claim_C3 (hf : K → Nat) (ops : List (Op K V))
    (hbasic : ∀ op ∈ ops, Op.basic op) {m : OMap K V}
    (hrun : runOps hf (emptyMap K V) ops = some m) :
    toPairs m = List.foldl stepA [] ops ∧
    ∀ i : Nat, indexAt m i = ((List.foldl stepA ([] : List (K × V)) ops)[i]?).map Prod.snd := by
  obtain ⟨hwf, hpairs⟩ := runOps_spec hf (emptyMap_wf hf) ops m hrun
  have h0 : toPairs (emptyMap K V) = [] := rfl
  rw [h0] at hpairs
  refine ⟨hpairs, fun i => ?_⟩
  rw [← hpairs, indexAt_toPairs]

theorem claim_C3_witness :
    toPairs mapBasic = [(3, 99)] ∧ indexAt mapBasic 0 = some 99 := by
  have h := claim_C3 (id : Nat → Nat) opsBasic (by decide)
    (show runOps id (emptyMap Nat Nat) opsBasic = some mapBasic by decide)
  refine ⟨?_, ?_⟩
  · rw [h.1]
    decide
  · rw [h.2 0]
    decide

/-- Claim C4: on a well-formed map, insert into capacity 0 allocates capacity
exactly 1; insert into capacity `C > 0` with pre-insert load above 0.75
(exactly: `3 C < 4 (len + deleted)`) yields capacity
`nextPowTwo (⌈C / 0.75⌉)` (`⌈C / 0.75⌉ = (4 C + 2) / 3` in exact integer
arithmetic, which agrees with the f64 computation for every capacity below
2^50; the platform-maximum saturation of `next_power_of_two` has no
counterpart over `Nat`) and resets the tombstone counter to 0; otherwise the
capacity and tombstone counter are unchanged. -/
theorem claim_C4 (hf : K → Nat) {m : OMap K V} (hm : WF hf m) (k : K) (v : V) :
    (capacity m = 0 → capacity (insert hf m k v).1 = 1) ∧
    (0 < capacity m → 3 * capacity m < 4 * (size m + m.deleted) →
      capacity (insert hf m k v).1 = nextPowTwo ((4 * capacity m + 2) / 3) ∧
      (insert hf m k v).1.deleted = 0) ∧
    (0 < capacity m → ¬ 3 * capacity m < 4 * (size m + m.deleted) →
      capacity (insert hf m k v).1 = capacity m ∧
      (insert hf m k v).1.deleted = m.deleted) := by
  obtain ⟨hcap, hdel⟩ := insert_frame hf m k v
  refine ⟨?_, ?_, ?_⟩
  · intro h0
    rw [hcap]
    unfold ensureCapacity
    rw [if_pos h0]
    rfl
  · intro hpos hload
    rw [hcap, hdel]
    unfold ensureCapacity maybeGrow
    rw [if_neg (show ¬ capacity m = 0 by omega), if_pos hload]
    have hle : m.entries.length ≤ nextPowTwo ((4 * capacity m + 2) / 3) := by
      have h1 := grow_newCap_gt (capacity m) hpos
      have h2 := hm.load_le
      have h3 := capacity_def m
      omega
    obtain ⟨_, _, hdel0, hcapEq, _, _⟩ :=
      reallocateReindex_spec hf hm.hash_eq hm.keys_nodup hle
    exact ⟨hcapEq, hdel0⟩
  · intro hpos hload
    rw [hcap, hdel]
    unfold ensureCapacity maybeGrow
    rw [if_neg (show ¬ capacity m = 0 by omega), if_neg hload]
    exact ⟨rfl, rfl⟩

theorem claim_C4_witness :
    capacity (insert (id : Nat → Nat) (emptyMap Nat Nat) 1 10).1 = 1 ∧
    capacity (insert (id : Nat → Nat) mapOne 2 20).1 = 2 ∧
    (insert (id : Nat → Nat) mapOne 2 20).1.deleted = 0 ∧
    capacity (insert (id : Nat → Nat) mapAll 9 91).1 = capacity mapAll := by
  have h1 := claim_C4 (id : Nat → Nat) (show WF id (emptyMap Nat Nat) by decide) 1 10
  have h2 := claim_C4 (id : Nat → Nat) (show WF id mapOne by decide) 2 20
  have h3 := claim_C4 (id : Nat → Nat) (show WF id mapAll by decide) 9 91
  refine ⟨h1.1 (by decide), ?_, (h2.2.1 (by decide) (by decide)).2,
    (h3.2.2 (by decide) (by decide)).1⟩
  have hc := (h2.2.1 (by decide) (by decide)).1
  rw [hc]
  decide

/-- Claim C5: the spec promises `reserve(n)` grows the capacity by exactly
`n` for every map, including a freshly created one; but on a capacity-0 map
the entry buffer was never allocated, and for `n > 0`
`BufferPointer::reallocate` is reached with a null pointer — a debug-build
assertion failure and undefined behavior (`realloc` on null) in release — so
the call never completes. The model returns `none` for that aborted
execution. -/
theorem claim_C5 : reserve (emptyMap Nat Nat) 1 = none := rfl

/-- Claim C7: the spec promises `clear()` drops all entries in
`[0, length)` and resets the tombstone state; but `BufferPointer::drop_init`
zeroes `self.len` before building the slice passed to `drop_in_place`, so
the destructor of zero elements runs — `(dropInit len).2 = 0` for every
`len` — and `clear()` returns early on a map with `len = 0`, leaving a
non-zero tombstone counter and `Deleted` index slots in place. -/
theorem claim_C7 :
    (dropInit 3).2 = 0 ∧
    clear mapEmptyTomb = mapEmptyTomb ∧
    mapEmptyTomb.deleted = 1 ∧
    mapEmptyTomb.index.count Slot.deleted = 1 := by
  decide

/-- Claim C6 (amended): for `length ≤ n < capacity` with `length > 0`,
`shrink_to(n)` yields capacity exactly `n` with a rebuilt tombstone-free
index and all lookups, values and order preserved; but with `length = 0` it
deallocates both buffers (capacity 0) for every such `n`, not only for
`n = 0` as claimed. Outside the range it is a no-op. -/
theorem claim_C6 (hf : K → Nat) {m : OMap K V} (hm : WF hf m) (n : Nat) :
    toPairs (shrinkTo m n) = toPairs m ∧
    (∀ k, get hf (shrinkTo m n) k = get hf m k) ∧
    (size m ≤ n → n < capacity m → 0 < size m →
      capacity (shrinkTo m n) = n ∧ (shrinkTo m n).deleted = 0 ∧
      (shrinkTo m n).index.count Slot.deleted = 0) ∧
    (size m = 0 → n < capacity m →
      capacity (shrinkTo m n) = 0 ∧ (shrinkTo m n).deleted = 0) ∧
    (¬ (size m ≤ n ∧ n < capacity m) → shrinkTo m n = m) := by
  obtain ⟨hwf, hpairs, hmain, hdealloc, hnoop⟩ := shrinkTo_spec hf hm n
  refine ⟨hpairs, ?_, hmain, ?_, hnoop⟩
  · intro k
    rw [get_eq_lookupA hf hwf k, hpairs, get_eq_lookupA hf hm k]
  · intro h1 h2
    obtain ⟨hc, _, hd⟩ := hdealloc h1 h2
    exact ⟨hc, hd⟩

/-- Claim C6 counterexample to the original wording: a map with
`length = 0 ≤ 1 = n < 2 = capacity` should end with capacity exactly 1, but
`shrink_to(1)` deallocates and the capacity becomes 0. -/
theorem claim_C6_counterexample :
    size (withCapacity Nat Nat 2) ≤ 1 ∧ 1 < capacity (withCapacity Nat Nat 2) ∧
    ¬ capacity (shrinkTo (withCapacity Nat Nat 2) 1) = 1 := by
  decide

theorem claim_C6_witness :
    capacity (shrinkTo mapTomb 1) = 1 ∧ (shrinkTo mapTomb 1).deleted = 0 ∧
    (shrinkTo mapTomb 1).index.count Slot.deleted = 0 ∧
    get (id : Nat → Nat) (shrinkTo mapTomb 1) 1 = get id mapTomb 1 := by
  have h := claim_C6 (id : Nat → Nat) (show WF id mapTomb by decide) 1
  obtain ⟨a, b, c⟩ := h.2.2.1 (by decide) (by decide) (by decide)
  exact ⟨a, b, c, h.2.1 1⟩

/-- Claim C8: after any sequence of public operations from a fresh map (a
sequence that completes: `reserve` on an unallocated map aborts, see C5),
`length ≤ capacity` and `length + deleted ≤ capacity`, so the load ratio is
at most 1. -/
theorem claim_C8 (hf : K → Nat) (ops : List (Op K V)) {m : OMap K V}
    (hrun : runOps hf (emptyMap K V) ops = some m) :
    size m ≤ capacity m ∧ size m + m.deleted ≤ capacity m := by
  obtain ⟨hwf, _⟩ := runOps_spec hf (emptyMap_wf hf) ops m hrun
  have := hwf.load_le
  rw [size_def, capacity_def]
  omega

theorem claim_C8_witness :
    size mapAll ≤ capacity mapAll ∧ size mapAll + mapAll.deleted ≤ capacity mapAll :=
  claim_C8 (id : Nat → Nat) opsAll
    (show runOps id (emptyMap Nat Nat) opsAll = some mapAll by decide)

/-- Claim C9: on a well-formed map, `clone_compact()` yields a map with
capacity equal to the source length and no tombstones, agreeing with the
source on `iter`, `get` at every key, positional access at every ordinal,
`first` and `last`. The clone holds its own copies of both buffers
(`clone_in` allocates fresh memory), so mutating either map cannot affect
the other; in the value semantics of the model this independence is
automatic. -/
theorem claim_C9 (hf : K → Nat) {m : OMap K V} (hm : WF hf m) :
    capacity (cloneCompact m) = size m ∧ (cloneCompact m).deleted = 0 ∧
    toPairs (cloneCompact m) = toPairs m ∧
    (∀ k, get hf (cloneCompact m) k = get hf m k) ∧
    (∀ i : Nat, indexAt (cloneCompact m) i = indexAt m i) ∧
    firstEntry (cloneCompact m) = firstEntry m ∧
    lastEntry (cloneCompact m) = lastEntry m := by
  obtain ⟨hwf, hcap, hdel, hent, hpairs⟩ := cloneCompact_spec hf hm
  refine ⟨hcap, hdel, hpairs, ?_, ?_, ?_, ?_⟩
  · intro k
    rw [get_eq_lookupA hf hwf k, hpairs, get_eq_lookupA hf hm k]
  · intro i
    unfold indexAt
    rw [hent]
  · unfold firstEntry
    rw [hent]
  · unfold lastEntry
    rw [hent]

theorem claim_C9_witness :
    capacity (cloneCompact mapTombB) = size mapTombB ∧
    (cloneCompact mapTombB).deleted = 0 ∧
    get (id : Nat → Nat) (cloneCompact mapTombB) 3 = get id mapTombB 3 ∧
    indexAt (cloneCompact mapTombB) 0 = indexAt mapTombB 0 ∧
    firstEntry (cloneCompact mapTombB) = firstEntry mapTombB := by
  have h := claim_C9 (id : Nat → Nat) (show WF id mapTombB by decide)
  exact ⟨h.1, h.2.1, h.2.2.2.1 3, h.2.2.2.2.1 0, h.2.2.2.2.2.1⟩

/-- Claim C10: `current_load` returns 0 for a capacity-0 map without ever
dividing — the `capacity == 0` guard short-circuits — and
`(length + deleted) / capacity` otherwise (stated over ℚ; the source divides
two exactly-represented f64 values). -/
theorem claim_C10 (m : OMap K V) :
    (capacity m = 0 → currentLoad m = 0) ∧
    (¬ capacity m = 0 →
      currentLoad m = ((size m : ℚ) + (m.deleted : ℚ)) / (capacity m : ℚ)) := by
  constructor
  · intro h0
    unfold currentLoad
    rw [if_pos h0]
  · intro h0
    unfold currentLoad
    rw [if_neg h0]

theorem claim_C10_witness :
    currentLoad (emptyMap Nat Nat) = 0 ∧
    currentLoad mapTomb
      = ((size mapTomb : ℚ) + (mapTomb.deleted : ℚ)) / (capacity mapTomb : ℚ) :=
  ⟨(claim_C10 (emptyMap Nat Nat)).1 rfl, (claim_C10 mapTomb).2 (by decide)⟩

end OmniMapModel
